import Mathlib

/-!
# Verification of the claude-code-sync-cn synchronization engine

Shallow embedding of the core synchronization engine of the repository:
session discovery with deduplication (`src/sync/discovery.rs`), diff
classification and deletion scoping of the push engine (`src/sync/push.rs`),
layout policy (`compute_relative_path`, `extract_project_name`,
`find_colliding_projects`, `check_directory_structure_consistency`),
filter-configuration validation (`src/filter.rs`), and the platform-tagged
content merge (`src/handlers/platform_filter.rs`).

Modelling conventions:
* Rust `String`/`&str` values that only get compared or stored are Lean
  `String`s; text that is scanned character by character (the regex-based
  platform filter) is modelled as `List Char`.
* Filesystem paths are lists of components (`List String`); `file_name()`
  is the last component, `strip_prefix` drops a leading component list.
* The filesystem itself is passed in explicitly: a directory listing is a
  list of `(directory name, file names)` pairs, parse results are
  `Option Session` values (the `ConversationSession` parser lives outside
  the synchronization core; sessions enter the engine as opaque records
  carrying `session_id`, `message_count`, `content_hash`, `project_name`
  and `file_path`, exactly the fields the engine reads).
* `HashMap` keyed state is modelled as an association list updated in
  place; the engine never depends on `HashMap` iteration order for the
  properties verified here.
-/

namespace SyncEngine

/-- A discovered conversation session, as the sync engine sees it
(`crate::parser::ConversationSession` restricted to the fields that
`discovery.rs` and `push.rs` read). -/
structure Session where
  session_id : String
  message_count : Nat
  content_hash : Nat
  project_name : Option String
  file_path : List String
  deriving DecidableEq, Repr

/-- One step of the `session_map.entry(...).and_modify(...).or_insert(...)`
deduplication of `discover_sessions` (`discovery.rs` lines 56-80): if the
session id is already present keep the entry with the strictly larger
message count (ties keep the existing entry), otherwise insert at the end. -/
def updateEntry : List (String × Session) → Session → List (String × Session)
  | [], s => [(s.session_id, s)]
  | (k, e) :: rest, s =>
    if k = s.session_id then
      (k, if s.message_count > e.message_count then s else e) :: rest
    else
      (k, e) :: updateEntry rest s

/-- `discover_sessions` (`discovery.rs` lines 26-83): walk results are given
as parse outcomes per `.jsonl` file passing the filter (`none` = parse
failure, logged and skipped); group by `session_id` keeping the member with
the most messages. -/
def discover_sessions (files : List (Option Session)) : List Session :=
  (((files.filterMap (fun x => x)).foldl updateEntry []).map Prod.snd)

/-- The group of parsed files sharing one session id, in discovery order. -/
def groupOf (l : List Session) (id : String) : List Session :=
  l.filter (fun s => s.session_id == id)

/-- The keep-the-larger choice applied by one `and_modify` step. -/
def pickStep (b x : Session) : Session :=
  if x.message_count > b.message_count then x else b

/-- The member of a session-id group retained by deduplication: fold the
keep-the-larger choice over the group in discovery order. -/
def pickBest (a : Session) (g : List Session) : Session :=
  g.foldl pickStep a

theorem lookup_updateEntry (acc : List (String × Session)) (s : Session)
    (id : String) :
    (updateEntry acc s).lookup id =
      if s.session_id = id then
        match acc.lookup id with
        | some e => some (pickStep e s)
        | none => some s
      else acc.lookup id := by
  induction acc with
  | nil =>
    by_cases h : s.session_id = id
    · subst h; simp [updateEntry, List.lookup]
    · have hb : (id == s.session_id) = false :=
        beq_false_of_ne (fun hh => h hh.symm)
      simp [updateEntry, List.lookup, h, hb]
  | cons p rest ih =>
    obtain ⟨k, e⟩ := p
    by_cases hk : k = s.session_id
    · subst hk
      by_cases h : s.session_id = id
      · subst h
        simp [updateEntry, List.lookup, pickStep]
      · have hb : (id == s.session_id) = false :=
          beq_false_of_ne (fun hh => h hh.symm)
        simp [updateEntry, List.lookup, h, hb]
    · by_cases h2 : k = id
      · subst h2
        have h : ¬ s.session_id = k := fun hh => hk hh.symm
        simp [updateEntry, List.lookup, hk, h]
      · have hb : (id == k) = false := beq_false_of_ne (fun hh => h2 hh.symm)
        simp [updateEntry, List.lookup, hk, hb, ih]

theorem lookup_foldl_updateEntry (l : List Session)
    (acc : List (String × Session)) (id : String) :
    (l.foldl updateEntry acc).lookup id =
      match acc.lookup id with
      | some e => some (pickBest e (groupOf l id))
      | none =>
        match groupOf l id with
        | [] => none
        | a :: g => some (pickBest a g) := by
  induction l generalizing acc with
  | nil => cases h : acc.lookup id <;> simp [groupOf, pickBest, h]
  | cons s t ih =>
    have hstep := lookup_updateEntry acc s id
    by_cases h : s.session_id = id
    · have hg : groupOf (s :: t) id = s :: groupOf t id := by
        simp [groupOf, List.filter, h]
      cases hacc : acc.lookup id with
      | some e =>
        have : (updateEntry acc s).lookup id = some (pickStep e s) := by
          rw [hstep]; simp [h, hacc]
        simp only [List.foldl_cons, ih, this, hg]
        simp [pickBest]
      | none =>
        have : (updateEntry acc s).lookup id = some s := by
          rw [hstep]; simp [h, hacc]
        simp only [List.foldl_cons, ih, this, hg]
    · have hg : groupOf (s :: t) id = groupOf t id := by
        simp [groupOf, List.filter, beq_false_of_ne h]
      have : (updateEntry acc s).lookup id = acc.lookup id := by
        rw [hstep]; simp [h]
      simp only [List.foldl_cons, ih, this, hg]

theorem pickBest_count_le (a : Session) (g : List Session) :
    a.message_count ≤ (pickBest a g).message_count := by
  induction g generalizing a with
  | nil => simp [pickBest]
  | cons x g ih =>
    have h := ih (pickStep a x)
    have hs : a.message_count ≤ (pickStep a x).message_count := by
      unfold pickStep; split <;> omega
    calc a.message_count ≤ (pickStep a x).message_count := hs
      _ ≤ _ := h

/-- The retained member of a group splits the group into strictly smaller
earlier members and no-larger later members: the fold keeps the first
member attaining the maximal message count. -/
theorem pickBest_decomp (a : Session) (g : List Session) :
    ∃ pre post, a :: g = pre ++ pickBest a g :: post ∧
      (∀ t ∈ pre, t.message_count < (pickBest a g).message_count) ∧
      (∀ t ∈ post, t.message_count ≤ (pickBest a g).message_count) := by
  induction g generalizing a with
  | nil => exact ⟨[], [], by simp [pickBest]⟩
  | cons x g ih =>
    have hfold : pickBest a (x :: g) = pickBest (pickStep a x) g := rfl
    obtain ⟨pre, post, hsplit, hpre, hpost⟩ := ih (pickStep a x)
    by_cases hax : x.message_count > a.message_count
    · have hstep : pickStep a x = x := by simp [pickStep, hax]
      rw [hstep] at hsplit hpre hpost
      refine ⟨a :: pre, post, ?_, ?_, ?_⟩
      · rw [hfold, hstep, List.cons_append, hsplit]
      · intro t ht
        rw [hfold, hstep]
        rcases List.mem_cons.mp ht with rfl | ht
        · have hx : x.message_count ≤ (pickBest x g).message_count :=
            pickBest_count_le x g
          omega
        · exact hpre t ht
      · rw [hfold, hstep]
        exact hpost
    · have hstep : pickStep a x = a := by simp [pickStep, hax]
      rw [hstep] at hsplit hpre hpost
      cases pre with
      | nil =>
        simp only [List.nil_append] at hsplit
        injection hsplit with ha1 ha2
        refine ⟨[], x :: g, ?_, by simp, ?_⟩
        · rw [hfold, hstep, ← ha1]
          simp
        · intro t ht
          rw [hfold, hstep, ← ha1]
          rcases List.mem_cons.mp ht with rfl | ht
          · omega
          · have hmem : t ∈ post := ha2 ▸ ht
            have := hpost t hmem
            rwa [← ha1] at this
      | cons b pre' =>
        rw [List.cons_append] at hsplit
        injection hsplit with hb1 hb2
        refine ⟨a :: x :: pre', post, ?_, ?_, ?_⟩
        · rw [hfold, hstep]
          simp only [List.cons_append]
          rw [← hb2]
        · intro t ht
          rw [hfold, hstep]
          have hab : a.message_count < (pickBest a g).message_count := by
            have := hpre b (List.mem_cons_self _ _)
            rwa [← hb1] at this
          rcases List.mem_cons.mp ht with rfl | ht
          · exact hab
          rcases List.mem_cons.mp ht with rfl | ht
          · omega
          · exact hpre t (List.mem_cons_of_mem _ ht)
        · rw [hfold, hstep]; exact hpost

theorem keys_updateEntry (acc : List (String × Session)) (s : Session) :
    (updateEntry acc s).map Prod.fst =
      if s.session_id ∈ acc.map Prod.fst then acc.map Prod.fst
      else acc.map Prod.fst ++ [s.session_id] := by
  induction acc with
  | nil => simp [updateEntry]
  | cons p rest ih =>
    obtain ⟨k, e⟩ := p
    by_cases hk : k = s.session_id
    · subst hk
      simp [updateEntry]
    · have hne : ¬ s.session_id = k := fun h => hk h.symm
      by_cases hmem : s.session_id ∈ rest.map Prod.fst <;>
        simp [updateEntry, hk, hne, hmem, ih]

theorem keys_nodup_foldl (l : List Session) (acc : List (String × Session))
    (h : (acc.map Prod.fst).Nodup) :
    ((l.foldl updateEntry acc).map Prod.fst).Nodup := by
  induction l generalizing acc with
  | nil => exact h
  | cons s t ih =>
    refine ih (updateEntry acc s) ?_
    rw [keys_updateEntry]
    by_cases hmem : s.session_id ∈ acc.map Prod.fst
    · simpa [hmem]
    · simp only [hmem, if_false]
      exact List.Nodup.append h (List.nodup_singleton _)
        (by simpa using fun h2 => hmem h2)

theorem updateEntry_key_invariant (acc : List (String × Session)) (s : Session)
    (h : ∀ p ∈ acc, p.1 = p.2.session_id) :
    ∀ p ∈ updateEntry acc s, p.1 = p.2.session_id := by
  induction acc with
  | nil =>
    intro p hp
    simp only [updateEntry, List.mem_singleton] at hp
    subst hp; rfl
  | cons q rest ih =>
    obtain ⟨k, e⟩ := q
    intro p hp
    by_cases hk : k = s.session_id
    · subst hk
      simp only [updateEntry, eq_self_iff_true, if_true, List.mem_cons] at hp
      rcases hp with hp | hp
      · rw [hp]
        show s.session_id =
          (if s.message_count > e.message_count then s else e).session_id
        split
        · rfl
        · exact h (s.session_id, e) (List.mem_cons_self _ _)
      · exact h p (List.mem_cons_of_mem _ hp)
    · simp only [updateEntry, if_neg hk, List.mem_cons] at hp
      rcases hp with rfl | hp
      · exact h (k, e) (List.mem_cons_self _ _)
      · exact ih (fun q hq => h q (List.mem_cons_of_mem _ hq)) p hp

theorem entry_key_invariant (l : List Session) (acc : List (String × Session))
    (h : ∀ p ∈ acc, p.1 = p.2.session_id) :
    ∀ p ∈ l.foldl updateEntry acc, p.1 = p.2.session_id := by
  induction l generalizing acc with
  | nil => exact h
  | cons s t ih =>
    exact ih (updateEntry acc s) (updateEntry_key_invariant acc s h)

theorem lookup_mem {α β : Type} [BEq α] [LawfulBEq α]
    (l : List (α × β)) (k : α) (b : β) (h : l.lookup k = some b) :
    (k, b) ∈ l := by
  induction l with
  | nil => simp [List.lookup] at h
  | cons p rest ih =>
    obtain ⟨k', b'⟩ := p
    cases hb : (k == k') with
    | true =>
      have hk : k = k' := eq_of_beq hb
      subst hk
      simp only [List.lookup, hb] at h
      cases h
      exact List.mem_cons_self _ _
    | false =>
      simp only [List.lookup, hb] at h
      exact List.mem_cons_of_mem _ (ih h)

theorem mem_lookup_of_nodup {α β : Type} [BEq α] [LawfulBEq α]
    (l : List (α × β)) (k : α) (b : β) (hnd : (l.map Prod.fst).Nodup)
    (h : (k, b) ∈ l) : l.lookup k = some b := by
  induction l with
  | nil => simp at h
  | cons p rest ih =>
    obtain ⟨k', b'⟩ := p
    rcases List.mem_cons.mp h with heq | hmem
    · cases heq
      simp [List.lookup]
    · simp only [List.map_cons, List.nodup_cons] at hnd
      have hne : (k == k') = false := by
        refine beq_false_of_ne (fun hk => ?_)
        subst hk
        exact hnd.1 (List.mem_map_of_mem Prod.fst hmem)
      simp only [List.lookup, hne]
      exact ih hnd.2 hmem

/-- The sync-operation vocabulary (`history.rs` `SyncOperation`). -/
inductive SyncOperation where
  | Added
  | Modified
  | Unchanged
  | Conflict
  | Deleted
  deriving DecidableEq, Repr

/-- The `existing_map` of `push_history` (`push.rs` lines 148-151): existing
synced sessions keyed by `session_id`. -/
def existingMapOf (existing : List Session) : List (String × Session) :=
  existing.map (fun s => (s.session_id, s))

/-- Diff classification of one local session (`push.rs` lines 211-222). -/
def classify_operation (existing_map : List (String × Session)) (s : Session) :
    SyncOperation :=
  match existing_map.lookup s.session_id with
  | some existing =>
    if existing.content_hash = s.content_hash then SyncOperation.Unchanged
    else SyncOperation.Modified
  | none => SyncOperation.Added

theorem lookup_foldl_nil_char (parsed : List Session) (sid : String) :
    (parsed.foldl updateEntry []).lookup sid =
      match groupOf parsed sid with
      | [] => none
      | a :: g => some (pickBest a g) := by
  have h := lookup_foldl_updateEntry parsed [] sid
  simpa [List.lookup] using h

theorem pickBest_mem (a : Session) (g : List Session) :
    pickBest a g ∈ a :: g := by
  obtain ⟨pre, post, hsplit, -, -⟩ := pickBest_decomp a g
  rw [hsplit]
  exact List.mem_append_right _ (List.mem_cons_self _ _)

theorem mem_discover_lookup (files : List (Option Session)) (s : Session)
    (h : s ∈ discover_sessions files) :
    ((files.filterMap (fun x => x)).foldl updateEntry []).lookup
      s.session_id = some s := by
  unfold discover_sessions at h
  obtain ⟨p, hp, hps⟩ := List.mem_map.mp h
  have hkey := entry_key_invariant (files.filterMap (fun x => x)) []
    (by simp) p hp
  have hnd := keys_nodup_foldl (files.filterMap (fun x => x)) [] (by simp)
  have : p = (s.session_id, s) := by
    obtain ⟨k, v⟩ := p
    simp only at hps hkey
    rw [hps] at hkey ⊢
    rw [hkey]
  rw [this] at hp
  exact mem_lookup_of_nodup _ _ _ hnd hp

theorem discover_mem_of_lookup (files : List (Option Session)) (sid : String)
    (s : Session)
    (h : ((files.filterMap (fun x => x)).foldl updateEntry []).lookup sid =
      some s) :
    s ∈ discover_sessions files := by
  unfold discover_sessions
  exact List.mem_map.mpr ⟨(sid, s), lookup_mem _ _ _ h, rfl⟩

/-- C2: `discover_sessions` keeps exactly one session per distinct
`session_id`; the retained session of each group splits the group (in
discovery order) into strictly smaller earlier members and no-larger later
members, i.e. it has the maximal message count and ties keep the first
file encountered. -/
theorem discover_sessions_dedup_correct (files : List (Option Session)) :
    ((discover_sessions files).map Session.session_id).Nodup ∧
    (∀ sid : String,
      (∃ s ∈ discover_sessions files, s.session_id = sid) ↔
      (∃ s ∈ files.filterMap (fun x => x), s.session_id = sid)) ∧
    (∀ s ∈ discover_sessions files,
      ∃ pre post,
        groupOf (files.filterMap (fun x => x)) s.session_id =
          pre ++ s :: post ∧
        (∀ t ∈ pre, t.message_count < s.message_count) ∧
        (∀ t ∈ post, t.message_count ≤ s.message_count)) := by
  set parsed := files.filterMap (fun x => x) with hparsed
  have hkey := entry_key_invariant parsed [] (by simp)
  have hnd := keys_nodup_foldl parsed [] (by simp)
  refine ⟨?_, ?_, ?_⟩
  · have hmapeq : (discover_sessions files).map Session.session_id =
        (parsed.foldl updateEntry []).map Prod.fst := by
      unfold discover_sessions
      rw [← hparsed, List.map_map]
      exact (List.map_congr_left (fun p hp => (hkey p hp).symm))
    rw [hmapeq]
    exact hnd
  · intro sid
    constructor
    · rintro ⟨s, hs, rfl⟩
      have hl := mem_discover_lookup files s hs
      rw [← hparsed] at hl
      rw [lookup_foldl_nil_char] at hl
      rcases hg : groupOf parsed s.session_id with _ | ⟨a, g⟩
      · rw [hg] at hl; cases hl
      · rw [hg] at hl
        have hmem : s ∈ a :: g := by
          have := pickBest_mem a g
          cases hl; exact this
        rw [← hg] at hmem
        unfold groupOf at hmem
        have := List.mem_filter.mp hmem
        exact ⟨s, this.1, rfl⟩
    · rintro ⟨s, hs, rfl⟩
      have hne : groupOf parsed s.session_id ≠ [] := by
        unfold groupOf
        intro hempty
        have : s ∈ parsed.filter (fun t => t.session_id == s.session_id) :=
          List.mem_filter.mpr ⟨hs, by simp⟩
        rw [hempty] at this
        cases this
      rcases hg : groupOf parsed s.session_id with _ | ⟨a, g⟩
      · exact absurd hg hne
      · have hl : (parsed.foldl updateEntry []).lookup s.session_id =
            some (pickBest a g) := by
          rw [lookup_foldl_nil_char, hg]
        have hmem := discover_mem_of_lookup files s.session_id
          (pickBest a g) (by rw [← hparsed]; exact hl)
        refine ⟨pickBest a g, hmem, ?_⟩
        have hpm : pickBest a g ∈ a :: g := pickBest_mem a g
        rw [← hg] at hpm
        unfold groupOf at hpm
        have := List.mem_filter.mp hpm
        exact eq_of_beq this.2
  · intro s hs
    have hl := mem_discover_lookup files s hs
    rw [← hparsed, lookup_foldl_nil_char] at hl
    rcases hg : groupOf parsed s.session_id with _ | ⟨a, g⟩
    · rw [hg] at hl; cases hl
    · rw [hg] at hl
      have hbest : pickBest a g = s := by cases hl; rfl
      obtain ⟨pre, post, hsplit, hpre, hpost⟩ := pickBest_decomp a g
      rw [hbest] at hsplit hpre hpost
      exact ⟨pre, post, hsplit, hpre, hpost⟩

/-- Concrete deduplication scenario: a main file with 20 messages and an
agent file with 2 messages share session id S; the 20-message file is
retained. -/
def demoMain : Session :=
  ⟨"S", 20, 111, some "proj", ["home", "proj", "main.jsonl"]⟩

def demoAgent : Session :=
  ⟨"S", 2, 222, some "proj", ["home", "proj", "agent.jsonl"]⟩

def demoOther : Session :=
  ⟨"T", 1, 333, none, ["home", "proj", "t.jsonl"]⟩

def demoFiles : List (Option Session) :=
  [some demoAgent, none, some demoMain, some demoOther]

theorem discover_sessions_dedup_correct_witness :
    ∃ pre post,
      groupOf (demoFiles.filterMap (fun x => x)) demoMain.session_id =
        pre ++ demoMain :: post ∧
      (∀ t ∈ pre, t.message_count < demoMain.message_count) ∧
      (∀ t ∈ post, t.message_count ≤ demoMain.message_count) :=
  (discover_sessions_dedup_correct demoFiles).2.2 demoMain (by decide)

theorem lookup_existingMap_none (l : List Session) (sid : String)
    (h : ∀ e ∈ l, e.session_id ≠ sid) :
    (existingMapOf l).lookup sid = none := by
  induction l with
  | nil => rfl
  | cons e t ih =>
    have hne : (sid == e.session_id) = false :=
      beq_false_of_ne (fun hh => h e (List.mem_cons_self _ _) hh.symm)
    simp only [existingMapOf, List.map_cons, List.lookup, hne]
    exact ih (fun e' he' => h e' (List.mem_cons_of_mem _ he'))

/-- C3: diff classification is total and matches the Added / Unchanged /
Modified case split of `push.rs` lines 211-222: Added when the session id
is absent from the synced-tree discovery result, Unchanged when present
with equal content hash, Modified when present with a differing hash. -/
theorem classify_operation_total (syncedFiles : List (Option Session))
    (s : Session) :
    ((∀ e ∈ discover_sessions syncedFiles, e.session_id ≠ s.session_id) →
      classify_operation (existingMapOf (discover_sessions syncedFiles)) s =
        SyncOperation.Added) ∧
    (∀ e ∈ discover_sessions syncedFiles, e.session_id = s.session_id →
      (e.content_hash = s.content_hash →
        classify_operation (existingMapOf (discover_sessions syncedFiles)) s =
          SyncOperation.Unchanged) ∧
      (e.content_hash ≠ s.content_hash →
        classify_operation (existingMapOf (discover_sessions syncedFiles)) s =
          SyncOperation.Modified)) ∧
    (classify_operation (existingMapOf (discover_sessions syncedFiles)) s =
        SyncOperation.Added ∨
      classify_operation (existingMapOf (discover_sessions syncedFiles)) s =
        SyncOperation.Unchanged ∨
      classify_operation (existingMapOf (discover_sessions syncedFiles)) s =
        SyncOperation.Modified) := by
  refine ⟨?_, ?_, ?_⟩
  · intro habs
    unfold classify_operation
    rw [lookup_existingMap_none _ _ habs]
  · intro e he heq
    have hnd : ((discover_sessions syncedFiles).map Session.session_id).Nodup :=
      (discover_sessions_dedup_correct syncedFiles).1
    have hmem : (s.session_id, e) ∈ existingMapOf (discover_sessions syncedFiles) := by
      unfold existingMapOf
      exact List.mem_map.mpr ⟨e, he, by rw [heq]⟩
    have hkeys : ((existingMapOf (discover_sessions syncedFiles)).map
        Prod.fst).Nodup := by
      unfold existingMapOf
      rw [List.map_map]
      exact hnd
    have hl := mem_lookup_of_nodup _ _ _ hkeys hmem
    constructor
    · intro hh
      unfold classify_operation
      rw [hl]
      simp [hh]
    · intro hh
      unfold classify_operation
      rw [hl]
      simp [hh]
  · unfold classify_operation
    rcases (existingMapOf (discover_sessions syncedFiles)).lookup s.session_id
      with _ | e
    · left; rfl
    · by_cases hh : e.content_hash = s.content_hash
      · right; left; simp [hh]
      · right; right; simp [hh]

def demoLocalModified : Session :=
  ⟨"S", 25, 999, some "proj", ["home", "proj", "main.jsonl"]⟩

theorem classify_operation_total_witness :
    demoMain.content_hash ≠ demoLocalModified.content_hash ∧
    classify_operation (existingMapOf (discover_sessions demoFiles))
      demoLocalModified = SyncOperation.Modified :=
  ⟨by decide,
    ((classify_operation_total demoFiles demoLocalModified).2.1 demoMain
      (by decide) (by decide)).2 (by decide)⟩

/-! ## Layout policy: `compute_relative_path` (`push.rs` lines 165-194) -/

/-- `Path::strip_prefix(claude_dir).unwrap_or(path)` on component lists. -/
def stripClaudeDir (claudeDir filePath : List String) : List String :=
  if claudeDir.isPrefixOf filePath then filePath.drop claudeDir.length
  else filePath

/-- `compute_relative_path` (`push.rs` lines 165-194): in
project-name-only mode take `PathBuf::from(project_name).join(filename)`,
returning `None` when the stripped path has no filename component or the
session has no derivable project name; in full-path mode return the
stripped path unconditionally. -/
def compute_relative_path (claudeDir : List String)
    (use_project_name_only : Bool) (s : Session) : Option (List String) :=
  if use_project_name_only then
    match (stripClaudeDir claudeDir s.file_path).getLast?, s.project_name with
    | some filename, some pname => some [pname, filename]
    | _, _ => none
  else
    some (stripClaudeDir claudeDir s.file_path)

theorem getLast?_stripClaudeDir (claudeDir filePath : List String)
    (h : stripClaudeDir claudeDir filePath ≠ []) :
    (stripClaudeDir claudeDir filePath).getLast? = filePath.getLast? := by
  unfold stripClaudeDir at h ⊢
  by_cases hp : claudeDir.isPrefixOf filePath
  · rw [if_pos hp] at h ⊢
    obtain ⟨t, ht⟩ := List.isPrefixOf_iff_prefix.mp hp
    subst ht
    rw [List.drop_left] at h ⊢
    rw [List.getLast?_append]
    obtain ⟨x, hx⟩ := Option.isSome_iff_exists.mp (List.getLast?_isSome.mpr h)
    rw [hx]
    rfl
  · rw [if_neg hp] at h ⊢

/-- C8: under ProjectNameOnly mode, for a session whose stripped source
path has a filename component, `compute_relative_path` returns `None`
exactly when the session has no derivable `project_name`; when a project
name is present the returned path's filename component equals the
session's source filename.  Under FullPath mode the result is always
`some`. -/
theorem compute_relative_path_spec (claudeDir : List String) (s : Session) :
    (compute_relative_path claudeDir false s).isSome = true ∧
    (stripClaudeDir claudeDir s.file_path ≠ [] →
      ((compute_relative_path claudeDir true s = none ↔
          s.project_name = none) ∧
        (∀ p, s.project_name = some p →
          ∃ r, compute_relative_path claudeDir true s = some r ∧
            r.getLast? = s.file_path.getLast?))) := by
  constructor
  · simp [compute_relative_path]
  · intro hne
    have hlast : (stripClaudeDir claudeDir s.file_path).getLast? =
        s.file_path.getLast? := getLast?_stripClaudeDir _ _ hne
    obtain ⟨fname, hf⟩ : ∃ fname,
        (stripClaudeDir claudeDir s.file_path).getLast? = some fname := by
      rcases hlf : (stripClaudeDir claudeDir s.file_path).getLast? with _ | f
      · exact absurd (List.getLast?_eq_none_iff.mp hlf) hne
      · exact ⟨f, rfl⟩
    constructor
    · cases hp : s.project_name with
      | none => simp [compute_relative_path, hf, hp]
      | some p => simp [compute_relative_path, hf, hp]
    · intro p hp
      refine ⟨[p, fname], ?_, ?_⟩
      · simp [compute_relative_path, hf, hp]
      · rw [← hlast, hf]
        rfl

def demoClaudeDir : List String := ["home", "user", ".claude", "projects"]

theorem compute_relative_path_spec_witness :
    stripClaudeDir demoClaudeDir demoMain.file_path ≠ [] ∧
    ∃ r, compute_relative_path demoClaudeDir true demoMain = some r ∧
      r.getLast? = demoMain.file_path.getLast? :=
  ⟨by decide,
    ((compute_relative_path_spec demoClaudeDir demoMain).2 (by decide)).2
      "proj" (by decide)⟩

/-! ## Filter configuration validation (`filter.rs` lines 369-381) -/

/-- The filter configuration (`filter.rs` `FilterConfig`), restricted to
its primitive fields (the nested `config_sync`/`auto_memory` settings play
no role in validation). -/
structure FilterConfig where
  exclude_older_than_days : Option Nat
  include_patterns : List String
  exclude_patterns : List String
  max_file_size_bytes : Nat
  exclude_attachments : Bool
  enable_lfs : Bool
  lfs_patterns : List String
  scm_backend : String
  sync_subdirectory : String
  use_project_name_only : Bool
  deriving DecidableEq, Repr

/-- `FilterConfig::default()` (`filter.rs`). -/
def FilterConfig.default : FilterConfig :=
  { exclude_older_than_days := none
    include_patterns := []
    exclude_patterns := []
    max_file_size_bytes := 10 * 1024 * 1024
    exclude_attachments := false
    enable_lfs := false
    lfs_patterns := ["*.jsonl"]
    scm_backend := "git"
    sync_subdirectory := "projects"
    use_project_name_only := true }

/-- Rust `str::to_lowercase` restricted to ASCII (all backend names the
code compares against are ASCII). -/
def strToLower (s : String) : String :=
  String.mk (s.data.map Char.toLower)

/-- `FilterConfig::validate` (`filter.rs` lines 369-381): reject when LFS
is enabled on a backend whose lowercased name is not `git` (the quotes of
the original message are omitted). -/
def FilterConfig.validate (c : FilterConfig) : Except String Unit :=
  if c.enable_lfs = true ∧ strToLower c.scm_backend ≠ "git" then
    Except.error
      ("Git LFS is only supported with the git backend. Current backend: "
        ++ c.scm_backend)
  else
    Except.ok ()

def exceptIsError : Except String Unit → Bool
  | Except.error _ => true
  | Except.ok _ => false

def cfgMixedCaseGit : FilterConfig :=
  { FilterConfig.default with enable_lfs := true, scm_backend := "Git" }

def cfgMercurialLfs : FilterConfig :=
  { FilterConfig.default with enable_lfs := true, scm_backend := "mercurial" }

/-- C9 counterexample: with `enable_lfs = true` and `scm_backend = "Git"`
(not the literal string `git`), `validate` succeeds, so an error is not
raised for every configuration whose backend differs from `"git"`: the
comparison is performed on the lowercased backend name. -/
theorem validate_not_literal_git :
    cfgMixedCaseGit.enable_lfs = true ∧
    cfgMixedCaseGit.scm_backend ≠ "git" ∧
    cfgMixedCaseGit.validate = Except.ok () := by
  refine ⟨rfl, by decide, ?_⟩
  rfl

/-- C9 (amended): `validate` returns an error if and only if `enable_lfs`
is true and the lowercased backend name is not `git`; in particular the
mercurial-with-LFS configuration is rejected with a descriptive error and
every configuration with `enable_lfs = false` validates successfully. -/
theorem validate_spec :
    (∀ c : FilterConfig,
      (exceptIsError c.validate = true ↔
        (c.enable_lfs = true ∧ strToLower c.scm_backend ≠ "git")) ∧
      (c.enable_lfs = false → c.validate = Except.ok ())) ∧
    cfgMercurialLfs.validate = Except.error
      ("Git LFS is only supported with the git backend. Current backend: "
        ++ "mercurial") := by
  constructor
  · intro c
    constructor
    · unfold FilterConfig.validate
      split
      · rename_i hcond
        simpa [exceptIsError] using hcond
      · rename_i hcond
        simpa [exceptIsError] using hcond
    · intro hfalse
      unfold FilterConfig.validate
      rw [if_neg]
      rintro ⟨h1, -⟩
      rw [hfalse] at h1
      cases h1
  · rfl

theorem validate_spec_witness :
    exceptIsError cfgMercurialLfs.validate = true ↔
      (cfgMercurialLfs.enable_lfs = true ∧
        strToLower cfgMercurialLfs.scm_backend ≠ "git") :=
  (validate_spec.1 cfgMercurialLfs).1

/-! ## Project-name extraction and collision detection
(`discovery.rs` lines 134-141 and 211-233) -/

/-- `str::split` on one separator character (every occurrence splits,
empty pieces kept, the empty string yields one empty piece). -/
def splitSep (sep : Char) : List Char → List (List Char)
  | [] => [[]]
  | c :: rest =>
    if c = sep then [] :: splitSep sep rest
    else
      match splitSep sep rest with
      | [] => [[c]]
      | l :: ls => (c :: l) :: ls

/-- `extract_project_name` (`discovery.rs` lines 134-141):
`encoded_path.rsplit('-').find(|s| !s.is_empty()).unwrap_or(encoded_path)`
— the last non-empty dash-separated segment, or the whole input if every
segment is empty. -/
def extract_project_name (encoded_path : List Char) : List Char :=
  match (splitSep '-' encoded_path).reverse.find? (fun t => !t.isEmpty) with
  | some seg => seg
  | none => encoded_path

/-- One step of the grouping `HashMap` of `find_colliding_projects`:
append the path to the entry for the derived name, inserting at the end
when absent. -/
def addToGroups (groups : List (List Char × List (List Char)))
    (key path : List Char) : List (List Char × List (List Char)) :=
  match groups with
  | [] => [(key, [path])]
  | (k, ps) :: rest =>
    if k = key then (k, ps ++ [path]) :: rest
    else (k, ps) :: addToGroups rest key path

/-- `find_colliding_projects` (`discovery.rs` lines 211-233): group the
local project directory names by derived project name and keep only
groups with more than one member. -/
def find_colliding_projects (dirNames : List (List Char)) :
    List (List Char × List (List Char)) :=
  (dirNames.foldl (fun acc n => addToGroups acc (extract_project_name n) n)
    []).filter (fun g => g.2.length > 1)

theorem splitSep_ne_nil (sep : Char) (s : List Char) :
    splitSep sep s ≠ [] := by
  cases s with
  | nil => simp [splitSep]
  | cons c rest =>
    simp only [splitSep]
    split
    · simp
    · split <;> simp

theorem sep_not_mem_splitSep (sep : Char) (s : List Char) :
    ∀ p ∈ splitSep sep s, sep ∉ p := by
  induction s with
  | nil =>
    intro p hp
    simp only [splitSep, List.mem_singleton] at hp
    subst hp
    simp
  | cons c rest ih =>
    intro p hp
    simp only [splitSep] at hp
    by_cases hc : c = sep
    · rw [if_pos hc] at hp
      rcases List.mem_cons.mp hp with rfl | hp
      · simp
      · exact ih p hp
    · rw [if_neg hc] at hp
      rcases hsr : splitSep sep rest with _ | ⟨l, ls⟩
      · exact absurd hsr (splitSep_ne_nil sep rest)
      · rw [hsr] at hp
        rcases List.mem_cons.mp hp with rfl | hp
        · intro hmem
          rcases List.mem_cons.mp hmem with heq | hmem
          · exact hc heq.symm
          · exact ih l (hsr ▸ List.mem_cons_self _ _) hmem
        · exact ih p (hsr ▸ List.mem_cons_of_mem _ hp)

theorem exists_nonempty_piece (s : List Char) (h : ∃ c ∈ s, c ≠ '-') :
    ∃ p ∈ splitSep '-' s, p ≠ [] := by
  induction s with
  | nil => simp at h
  | cons c rest ih =>
    by_cases hc : c = '-'
    · subst hc
      obtain ⟨d, hd, hdne⟩ := h
      rcases List.mem_cons.mp hd with rfl | hd
      · exact absurd rfl hdne
      · obtain ⟨p, hp, hpne⟩ := ih ⟨d, hd, hdne⟩
        refine ⟨p, ?_, hpne⟩
        simp only [splitSep, if_pos rfl]
        exact List.mem_cons_of_mem _ hp
    · rcases hsr : splitSep '-' rest with _ | ⟨l, ls⟩
      · exact absurd hsr (splitSep_ne_nil '-' rest)
      · refine ⟨c :: l, ?_, by simp⟩
        simp only [splitSep, if_neg hc, hsr]
        exact List.mem_cons_self _ _

theorem find?_decomp {α : Type} (p : α → Bool) (l : List α) (x : α)
    (h : l.find? p = some x) :
    ∃ a b, l = a ++ x :: b ∧ (∀ t ∈ a, p t = false) ∧ p x = true := by
  induction l with
  | nil => cases h
  | cons y t ih =>
    cases hy : p y with
    | true =>
      rw [List.find?_cons_of_pos _ hy] at h
      cases h
      exact ⟨[], t, rfl, by simp, hy⟩
    | false =>
      rw [List.find?_cons_of_neg _ (by simp [hy])] at h
      obtain ⟨a, b, hab, ha, hx⟩ := ih h
      exact ⟨y :: a, b, by rw [hab, List.cons_append], by
        intro u hu
        rcases List.mem_cons.mp hu with rfl | hu
        · exact hy
        · exact ha u hu, hx⟩

theorem lookup_addToGroups (groups : List (List Char × List (List Char)))
    (k' path k : List Char) :
    (addToGroups groups k' path).lookup k =
      if k = k' then some (((groups.lookup k').getD []) ++ [path])
      else groups.lookup k := by
  induction groups with
  | nil =>
    by_cases hk : k = k'
    · subst hk
      simp [addToGroups, List.lookup]
    · simp [addToGroups, List.lookup, hk, beq_false_of_ne hk]
  | cons g rest ih =>
    obtain ⟨kg, ps⟩ := g
    by_cases hg : kg = k'
    · subst hg
      by_cases hk : k = kg
      · subst hk
        simp [addToGroups, List.lookup]
      · simp [addToGroups, List.lookup, hk, beq_false_of_ne hk]
    · have hkg2 : (k' == kg) = false := beq_false_of_ne (fun hh => hg hh.symm)
      by_cases hk : k = kg
      · subst hk
        simp [addToGroups, List.lookup, hg, hkg2]
      · simp [addToGroups, List.lookup, hg, hk, beq_false_of_ne hk, ih, hkg2]

theorem lookup_fold_groups (l : List (List Char))
    (acc : List (List Char × List (List Char))) (k : List Char) :
    ((l.foldl (fun acc n => addToGroups acc (extract_project_name n) n)
        acc).lookup k) =
      match acc.lookup k with
      | some ps => some (ps ++
          l.filter (fun n => extract_project_name n == k))
      | none =>
        if (l.filter (fun n => extract_project_name n == k)).isEmpty then
          none
        else some (l.filter (fun n => extract_project_name n == k)) := by
  induction l generalizing acc with
  | nil => cases h : acc.lookup k <;> simp [h]
  | cons n t ih =>
    simp only [List.foldl_cons]
    rw [ih]
    have hstep := lookup_addToGroups acc (extract_project_name n) n k
    by_cases he : extract_project_name n = k
    · have hkeq : k = extract_project_name n := he.symm
      have hbeq : (extract_project_name n == k) = true := by simp [he]
      have hfil : (n :: t).filter (fun m => extract_project_name m == k) =
          n :: t.filter (fun m => extract_project_name m == k) := by
        simp [List.filter, hbeq]
      rw [hstep, if_pos hkeq, hfil, ← hkeq]
      cases h : acc.lookup k with
      | some ps => simp [h]
      | none => simp [h]
    · have hbeq : (extract_project_name n == k) = false := beq_false_of_ne he
      have hfil : (n :: t).filter (fun m => extract_project_name m == k) =
          t.filter (fun m => extract_project_name m == k) := by
        simp [List.filter, hbeq]
      have hkne : ¬ k = extract_project_name n := fun hh => he hh.symm
      rw [hstep, if_neg hkne, hfil]

/-- C10: for every encoded directory name containing at least one
character other than the dash separator, `extract_project_name` returns
the last non-empty dash-separated segment (a dash-free, non-empty string);
consequently two distinct directory names sharing the final segment map to
the same name and `find_colliding_projects` reports them in one group. -/
theorem extract_project_name_last_segment :
    (∀ s : List Char, (∃ c ∈ s, c ≠ '-') →
      '-' ∉ extract_project_name s ∧ extract_project_name s ≠ [] ∧
      ∃ a b, splitSep '-' s = a ++ extract_project_name s :: b ∧
        ∀ t ∈ b, t = []) ∧
    (∀ dirNames n₁ n₂, n₁ ∈ dirNames → n₂ ∈ dirNames → n₁ ≠ n₂ →
      extract_project_name n₁ = extract_project_name n₂ →
      ∃ g ∈ find_colliding_projects dirNames,
        g.1 = extract_project_name n₁ ∧ n₁ ∈ g.2 ∧ n₂ ∈ g.2) := by
  constructor
  · intro s h
    obtain ⟨p0, hp0, hp0ne⟩ := exists_nonempty_piece s h
    have hp0r : p0 ∈ (splitSep '-' s).reverse := List.mem_reverse.mpr hp0
    have hsome : ((splitSep '-' s).reverse.find? (fun t => !t.isEmpty)).isSome := by
      rw [List.find?_isSome]
      exact ⟨p0, hp0r, by simpa using hp0ne⟩
    obtain ⟨seg, hseg⟩ := Option.isSome_iff_exists.mp hsome
    have hext : extract_project_name s = seg := by
      unfold extract_project_name
      rw [hseg]
    obtain ⟨a, b, hab, hall, hpred⟩ := find?_decomp _ _ _ hseg
    have hsmem : seg ∈ splitSep '-' s := by
      rw [← List.mem_reverse, hab]
      exact List.mem_append_right _ (List.mem_cons_self _ _)
    refine ⟨?_, ?_, ?_⟩
    · rw [hext]
      exact sep_not_mem_splitSep '-' s seg hsmem
    · rw [hext]
      intro hnil
      rw [hnil] at hpred
      simp at hpred
    · refine ⟨b.reverse, a.reverse, ?_, ?_⟩
      · rw [hext]
        have : splitSep '-' s = ((splitSep '-' s).reverse).reverse := by
          rw [List.reverse_reverse]
        rw [this, hab]
        simp [List.reverse_append]
      · intro t ht
        have := hall t (List.mem_reverse.mp ht)
        simpa using this
  · intro dirNames n₁ n₂ h1 h2 hne hext
    have hlk := lookup_fold_groups dirNames [] (extract_project_name n₁)
    simp only [List.lookup] at hlk
    have hn1f : n₁ ∈ dirNames.filter
        (fun n => extract_project_name n == extract_project_name n₁) :=
      List.mem_filter.mpr ⟨h1, by simp⟩
    have hn2f : n₂ ∈ dirNames.filter
        (fun n => extract_project_name n == extract_project_name n₁) :=
      List.mem_filter.mpr ⟨h2, by simp [hext]⟩
    have hnonempty : (dirNames.filter
        (fun n => extract_project_name n == extract_project_name n₁)).isEmpty
          = false := by
      rcases hf : dirNames.filter
          (fun n => extract_project_name n == extract_project_name n₁) with
        _ | ⟨x, xs⟩
      · rw [hf] at hn1f; cases hn1f
      · simp
    rw [hnonempty] at hlk
    simp only [Bool.false_eq_true, if_false] at hlk
    have hmem := lookup_mem _ _ _ hlk
    have hlen : 1 < (dirNames.filter
        (fun n => extract_project_name n == extract_project_name n₁)).length := by
      rcases hf : dirNames.filter
          (fun n => extract_project_name n == extract_project_name n₁) with
        _ | ⟨x, xs⟩
      · rw [hf] at hn1f; cases hn1f
      · rcases xs with _ | ⟨y, ys⟩
        · rw [hf] at hn1f hn2f
          have e1 := List.mem_singleton.mp hn1f
          have e2 := List.mem_singleton.mp hn2f
          exact absurd (e1.trans e2.symm) hne
        · simp
    refine ⟨(extract_project_name n₁, dirNames.filter
        (fun n => extract_project_name n == extract_project_name n₁)), ?_,
      rfl, hn1f, hn2f⟩
    unfold find_colliding_projects
    refine List.mem_filter.mpr ⟨hmem, ?_⟩
    simpa using hlen

def wDirWork : List Char := "-Users-abc-work-myapp".data

def wDirPersonal : List Char := "-Users-abc-personal-myapp".data

theorem extract_project_name_last_segment_witness :
    ∃ g ∈ find_colliding_projects [wDirWork, wDirPersonal],
      g.1 = extract_project_name wDirWork ∧
      wDirWork ∈ g.2 ∧ wDirPersonal ∈ g.2 :=
  extract_project_name_last_segment.2 [wDirWork, wDirPersonal]
    wDirWork wDirPersonal (by decide) (by decide) (by decide) (by decide)

/-! ## Directory-structure consistency check
(`discovery.rs` lines 259-334) -/

/-- `DirectoryStructureCheck` (`discovery.rs`); the Chinese warning text is
summarised by `is_consistent` (the warning is `Some _` exactly when
`is_consistent` is false). -/
structure DirectoryStructureCheck where
  full_path_dirs : List (List Char)
  project_name_dirs : List (List Char)
  is_consistent : Bool
  deriving DecidableEq, Repr

/-- `dir_name.starts_with('.')`: the first character is a dot. -/
def isHiddenName (n : List Char) : Bool :=
  n.head? == some '.'

/-- The full-path-shape test of `check_directory_structure_consistency`:
`dir_name.starts_with('-') && dir_name.matches('-').count() >= 3`. -/
def isFullPathShaped (n : List Char) : Bool :=
  (n.head? == some '-') && decide (3 ≤ n.count '-')

/-- `check_directory_structure_consistency` (`discovery.rs` lines
259-334) on the list of top-level directory names of the synced tree. -/
def check_directory_structure_consistency (dirNames : List (List Char))
    (use_project_name_only : Bool) : DirectoryStructureCheck :=
  let visible := dirNames.filter (fun n => !isHiddenName n)
  let full_path_dirs := visible.filter isFullPathShaped
  let project_name_dirs := visible.filter (fun n => !isFullPathShaped n)
  let has_full_path := !full_path_dirs.isEmpty
  let has_project_name := !project_name_dirs.isEmpty
  let is_consistent :=
    if has_full_path && has_project_name then false
    else if use_project_name_only && has_full_path && !has_project_name then
      false
    else if !use_project_name_only && has_project_name && !has_full_path then
      false
    else true
  ⟨full_path_dirs, project_name_dirs, is_consistent⟩

theorem isFullPathShaped_iff (n : List Char) :
    isFullPathShaped n = true ↔ (n.head? = some '-' ∧ 3 ≤ n.count '-') := by
  unfold isFullPathShaped
  simp [beq_iff_eq]

theorem mem_filter_visible (dirNames : List (List Char)) (p : List Char → Bool)
    (n : List Char) :
    n ∈ (dirNames.filter (fun m => !isHiddenName m)).filter p ↔
      (n ∈ dirNames ∧ isHiddenName n = false ∧ p n = true) := by
  rw [List.mem_filter, List.mem_filter]
  constructor
  · rintro ⟨⟨h1, h2⟩, h3⟩
    exact ⟨h1, by simpa using h2, h3⟩
  · rintro ⟨h1, h2, h3⟩
    exact ⟨⟨h1, by simp [h2]⟩, h3⟩

/-- C5: the consistency check classifies every non-hidden top-level
directory name as full-path-shaped exactly when it begins with a dash and
contains at least three dashes, and reports `is_consistent = false`
exactly when both shapes coexist, or the mode is project-name-only and a
full-path-shaped directory exists, or the mode is full-path and a
project-name-shaped directory exists. -/
theorem check_directory_structure_consistency_spec
    (dirNames : List (List Char)) (use_project_name_only : Bool) :
    (∀ n, n ∈ (check_directory_structure_consistency dirNames
        use_project_name_only).full_path_dirs ↔
      (n ∈ dirNames ∧ isHiddenName n = false ∧
        (n.head? = some '-' ∧ 3 ≤ n.count '-'))) ∧
    (∀ n, n ∈ (check_directory_structure_consistency dirNames
        use_project_name_only).project_name_dirs ↔
      (n ∈ dirNames ∧ isHiddenName n = false ∧
        ¬(n.head? = some '-' ∧ 3 ≤ n.count '-'))) ∧
    ((check_directory_structure_consistency dirNames
        use_project_name_only).is_consistent = false ↔
      ((∃ n ∈ dirNames, isHiddenName n = false ∧ isFullPathShaped n = true) ∧
        (∃ n ∈ dirNames, isHiddenName n = false ∧ isFullPathShaped n = false)) ∨
      (use_project_name_only = true ∧
        ∃ n ∈ dirNames, isHiddenName n = false ∧ isFullPathShaped n = true) ∨
      (use_project_name_only = false ∧
        ∃ n ∈ dirNames, isHiddenName n = false ∧ isFullPathShaped n = false)) := by
  have hfull : ∀ n, n ∈ (check_directory_structure_consistency dirNames
      use_project_name_only).full_path_dirs ↔
      (n ∈ dirNames ∧ isHiddenName n = false ∧ isFullPathShaped n = true) := by
    intro n
    exact mem_filter_visible dirNames isFullPathShaped n
  have hpn : ∀ n, n ∈ (check_directory_structure_consistency dirNames
      use_project_name_only).project_name_dirs ↔
      (n ∈ dirNames ∧ isHiddenName n = false ∧ isFullPathShaped n = false) := by
    intro n
    have h0 := mem_filter_visible dirNames (fun m => !isFullPathShaped m) n
    simp only [Bool.not_eq_true'] at h0
    exact h0
  have hfullEx : ((check_directory_structure_consistency dirNames
      use_project_name_only).full_path_dirs.isEmpty = false) ↔
      ∃ n ∈ dirNames, isHiddenName n = false ∧ isFullPathShaped n = true := by
    constructor
    · rintro h
      obtain ⟨n, hn⟩ := List.isEmpty_eq_false_iff_exists_mem.mp h
      exact ⟨n, (hfull n).mp hn⟩
    · rintro ⟨n, hn⟩
      rw [List.isEmpty_eq_false_iff_exists_mem]
      exact ⟨n, (hfull n).mpr hn⟩
  have hpnEx : ((check_directory_structure_consistency dirNames
      use_project_name_only).project_name_dirs.isEmpty = false) ↔
      ∃ n ∈ dirNames, isHiddenName n = false ∧ isFullPathShaped n = false := by
    constructor
    · rintro h
      obtain ⟨n, hn⟩ := List.isEmpty_eq_false_iff_exists_mem.mp h
      exact ⟨n, (hpn n).mp hn⟩
    · rintro ⟨n, hn⟩
      rw [List.isEmpty_eq_false_iff_exists_mem]
      exact ⟨n, (hpn n).mpr hn⟩
  refine ⟨?_, ?_, ?_⟩
  · intro n
    rw [hfull n, isFullPathShaped_iff]
  · intro n
    rw [hpn n]
    constructor
    · rintro ⟨h1, h2, h3⟩
      refine ⟨h1, h2, ?_⟩
      rw [← isFullPathShaped_iff, h3]
      simp
    · rintro ⟨h1, h2, h3⟩
      refine ⟨h1, h2, ?_⟩
      rw [← isFullPathShaped_iff] at h3
      simpa using h3
  · rw [← hfullEx, ← hpnEx]
    set cf := (check_directory_structure_consistency dirNames
      use_project_name_only).full_path_dirs.isEmpty with hcf
    set cp := (check_directory_structure_consistency dirNames
      use_project_name_only).project_name_dirs.isEmpty with hcp
    have hconsist : (check_directory_structure_consistency dirNames
        use_project_name_only).is_consistent =
        (if !cf && !cp then false
        else if use_project_name_only && !cf && !(!cp) then false
        else if !use_project_name_only && !cp && !(!cf) then false
        else true) := rfl
    rw [hconsist]
    cases cf <;> cases cp <;> cases use_project_name_only <;> simp

def demoSyncDirs : List (List Char) :=
  ["-Users-abc-Documents-proj".data, "myapp".data, ".git".data]

theorem check_directory_structure_consistency_spec_witness :
    ((∃ n ∈ demoSyncDirs, isHiddenName n = false ∧ isFullPathShaped n = true) ∧
      (∃ n ∈ demoSyncDirs, isHiddenName n = false ∧
        isFullPathShaped n = false)) ∨
    (true = true ∧
      ∃ n ∈ demoSyncDirs, isHiddenName n = false ∧ isFullPathShaped n = true) ∨
    (true = false ∧
      ∃ n ∈ demoSyncDirs, isHiddenName n = false ∧
        isFullPathShaped n = false) :=
  (check_directory_structure_consistency_spec demoSyncDirs true).2.2.mp
    (by decide)

/-! ## Deletion scoping during push (`push.rs` lines 346-491) -/

/-- `Path::file_name().and_then(to_str).unwrap_or_default()` on the
session's source path. -/
def fileNameOf (s : Session) : String :=
  (s.file_path.getLast?).getD ""

/-- The project names of the locally discovered sessions
(`project_name_has_local` in `push.rs` lines 391-407). -/
def projectNamesOf (ss : List Session) : List String :=
  ss.filterMap Session.project_name

/-- `local_files_by_name` (`push.rs` lines 388-407): the session file
names of every discovered local session whose project name is `p` (the
union over all local directories mapping to `p`). -/
def localNamesFor (ss : List Session) (p : String) : List String :=
  ss.filterMap (fun s =>
    if s.project_name = some p then some (fileNameOf s) else none)

/-- `name.ends_with(".jsonl")`. -/
def endsJsonl (f : String) : Bool :=
  ".jsonl".data.isSuffixOf f.data

/-- The deletion pass of `push_history` in project-name-only mode
(`push.rs` lines 386-446): for every synced project directory whose name
is the project name of some locally discovered session, remove each
`.jsonl` file whose name no local session of that project carries; synced
projects with no matching local session are skipped entirely.  The synced
tree is given as `(directory name, file names)` pairs; the result is the
list of `(project, file)` pairs removed. -/
def deleted_sessions_pno (ss : List Session)
    (syncTree : List (String × List String)) : List (String × String) :=
  syncTree.flatMap (fun pr =>
    if (projectNamesOf ss).contains pr.1 then
      (pr.2.filter (fun f =>
        endsJsonl f && !(localNamesFor ss pr.1).contains f)).map
        (fun f => (pr.1, f))
    else [])

/-- `local_files_by_project` (`push.rs` lines 351-381): the non-hidden
local project directories with their `.jsonl` file names. -/
def localJsonlMap (localTree : List (String × List String)) :
    List (String × List String) :=
  (localTree.filter (fun d => !(d.1.startsWith "."))).map
    (fun d => (d.1, d.2.filter endsJsonl))

/-- The deletion pass of `push_history` in full-path mode (`push.rs`
lines 447-482): only synced directories whose exact name is a non-hidden
local project directory are processed; a `.jsonl` file is removed when the
local directory has no file of that name. -/
def deleted_sessions_fullpath (localTree syncTree : List (String × List String)) :
    List (String × String) :=
  syncTree.flatMap (fun pr =>
    match (localJsonlMap localTree).lookup pr.1 with
    | some localFiles =>
      (pr.2.filter (fun f => endsJsonl f && !localFiles.contains f)).map
        (fun f => (pr.1, f))
    | none => [])

theorem lookup_eq_none_of_keys {α β : Type} [BEq α] [LawfulBEq α]
    (l : List (α × β)) (k : α) (h : ∀ q ∈ l, q.1 ≠ k) :
    l.lookup k = none := by
  induction l with
  | nil => rfl
  | cons q rest ih =>
    obtain ⟨kq, v⟩ := q
    have hne : (k == kq) = false :=
      beq_false_of_ne (fun hh => h (kq, v) (List.mem_cons_self _ _) hh.symm)
    simp only [List.lookup, hne]
    exact ih (fun q hq => h q (List.mem_cons_of_mem _ hq))

/-- C1: a synced session file is removed only if its parent synced
project corresponds, under the active layout mode, to a local project
(project-name match against discovered sessions in project-name-only
mode, exact non-hidden directory-name match in full-path mode) and no
local session file under that project has the same name; in particular a
synced project matching no local project loses no files. -/
theorem push_deletion_scoped (ss : List Session)
    (syncTreePNO : List (String × List String))
    (localTree syncTreeFP : List (String × List String)) :
    ((∀ p f, (p, f) ∈ deleted_sessions_pno ss syncTreePNO →
        p ∈ projectNamesOf ss ∧
        (∀ s ∈ ss, s.project_name = some p → fileNameOf s ≠ f)) ∧
      (∀ p, p ∉ projectNamesOf ss →
        ∀ f, (p, f) ∉ deleted_sessions_pno ss syncTreePNO)) ∧
    ((∀ p f, (p, f) ∈ deleted_sessions_fullpath localTree syncTreeFP →
        ∃ d ∈ localTree, d.1 = p ∧ d.1.startsWith "." = false ∧ f ∉ d.2) ∧
      (∀ p, (∀ d ∈ localTree, d.1 ≠ p) →
        ∀ f, (p, f) ∉ deleted_sessions_fullpath localTree syncTreeFP)) := by
  refine ⟨⟨?_, ?_⟩, ?_, ?_⟩
  · intro p f hpf
    unfold deleted_sessions_pno at hpf
    obtain ⟨pr, hpr, hm⟩ := List.mem_flatMap.mp hpf
    by_cases hc : (projectNamesOf ss).contains pr.1
    · rw [if_pos hc] at hm
      obtain ⟨f0, hf0, heq⟩ := List.mem_map.mp hm
      injection heq with heq1 heq2
      subst heq1
      subst heq2
      have hfilter := List.mem_filter.mp hf0
      have hflags := hfilter.2
      rw [Bool.and_eq_true] at hflags
      constructor
      · exact List.mem_of_elem_eq_true hc
      · intro s hsmem hsp hname
        have hcont : (localNamesFor ss pr.1).contains f0 = true := by
          apply List.elem_eq_true_of_mem
          unfold localNamesFor
          refine List.mem_filterMap.mpr ⟨s, hsmem, ?_⟩
          rw [if_pos hsp, hname]
        rw [hcont] at hflags
        simp at hflags
    · rw [if_neg hc] at hm
      cases hm
  · intro p hp f hpf
    unfold deleted_sessions_pno at hpf
    obtain ⟨pr, hpr, hm⟩ := List.mem_flatMap.mp hpf
    by_cases hc : (projectNamesOf ss).contains pr.1
    · rw [if_pos hc] at hm
      obtain ⟨f0, hf0, heq⟩ := List.mem_map.mp hm
      injection heq with heq1 heq2
      subst heq1
      exact hp (List.mem_of_elem_eq_true hc)
    · rw [if_neg hc] at hm
      cases hm
  · intro p f hpf
    unfold deleted_sessions_fullpath at hpf
    obtain ⟨pr, hpr, hm⟩ := List.mem_flatMap.mp hpf
    rcases hl : (localJsonlMap localTree).lookup pr.1 with _ | localFiles
    · rw [hl] at hm
      cases hm
    · rw [hl] at hm
      obtain ⟨f0, hf0, heq⟩ := List.mem_map.mp hm
      injection heq with heq1 heq2
      subst heq1
      subst heq2
      have hmem := lookup_mem _ _ _ hl
      unfold localJsonlMap at hmem
      obtain ⟨d, hd, hdeq⟩ := List.mem_map.mp hmem
      have hdfilter := List.mem_filter.mp hd
      injection hdeq with hd1 hd2
      refine ⟨d, hdfilter.1, hd1, by simpa using hdfilter.2, ?_⟩
      have hfilter := List.mem_filter.mp hf0
      have hflags := hfilter.2
      rw [Bool.and_eq_true] at hflags
      intro hfd
      have hcont : localFiles.contains f0 = true := by
        apply List.elem_eq_true_of_mem
        rw [← hd2]
        exact List.mem_filter.mpr ⟨hfd, hflags.1⟩
      rw [hcont] at hflags
      simp at hflags
  · intro p hp f hpf
    unfold deleted_sessions_fullpath at hpf
    obtain ⟨pr, hpr, hm⟩ := List.mem_flatMap.mp hpf
    rcases hl : (localJsonlMap localTree).lookup pr.1 with _ | localFiles
    · rw [hl] at hm
      cases hm
    · rw [hl] at hm
      obtain ⟨f0, hf0, heq⟩ := List.mem_map.mp hm
      injection heq with heq1 heq2
      subst heq1
      have hmem := lookup_mem _ _ _ hl
      unfold localJsonlMap at hmem
      obtain ⟨d, hd, hdeq⟩ := List.mem_map.mp hmem
      have hdfilter := List.mem_filter.mp hd
      injection hdeq with hd1 hd2
      exact hp d hdfilter.1 hd1

def demoLocalTree : List (String × List String) :=
  [("-Users-a-myapp", ["x.jsonl", "keep.jsonl"])]

def demoSyncTree : List (String × List String) :=
  [("-Users-a-myapp", ["x.jsonl", "gone.jsonl"]),
    ("-Users-b-ghost", ["other.jsonl"])]

theorem push_deletion_scoped_witness :
    ("-Users-b-ghost", "other.jsonl") ∉
      deleted_sessions_fullpath demoLocalTree demoSyncTree :=
  ((push_deletion_scoped [] [] demoLocalTree demoSyncTree).2.2
    "-Users-b-ghost" (by decide)) "other.jsonl"

/-! ## Platform-tagged content filter (`handlers/platform_filter.rs`)

The Rust code drives everything through the regex

  `(?s)<!--\s*platform:\s*(macos|mac|darwin|windows|win|linux)\s*-->`
  `(.*?)<!--\s*end-platform\s*-->`

with leftmost, non-overlapping `replace_all` / `captures_iter` semantics
and a non-greedy body.  The embedding is a character scanner with exactly
those semantics: an opening tag (literal `<!--`, whitespace, `platform:`,
whitespace, one of the six lowercase alternation names preferring the
longer alternatives first, whitespace, `-->`), then the shortest body
followed by an end tag.  `\s` is modelled as ASCII whitespace. -/

def isWsChar (c : Char) : Bool :=
  c = ' ' || c = '\t' || c = '\n' || c = '\r' ||
    c = Char.ofNat 11 || c = Char.ofNat 12

/-- The fixed texts of the block grammar, as explicit character lists. -/
def litOpen : List Char := ['<', '!', '-', '-']

def litClose : List Char := ['-', '-', '>']

def litPlatformColon : List Char :=
  ['p', 'l', 'a', 't', 'f', 'o', 'r', 'm', ':']

def litEndPlatform : List Char :=
  ['e', 'n', 'd', '-', 'p', 'l', 'a', 't', 'f', 'o', 'r', 'm']

def macosN : List Char := ['m', 'a', 'c', 'o', 's']

def macN : List Char := ['m', 'a', 'c']

def darwinN : List Char := ['d', 'a', 'r', 'w', 'i', 'n']

def windowsN : List Char := ['w', 'i', 'n', 'd', 'o', 'w', 's']

def winN : List Char := ['w', 'i', 'n']

def linuxN : List Char := ['l', 'i', 'n', 'u', 'x']

inductive Platform where
  | MacOS
  | Windows
  | Linux
  deriving DecidableEq, Repr

/-- `Platform::tag_name`. -/
def Platform.tag_name : Platform → List Char
  | Platform.MacOS => macosN
  | Platform.Windows => windowsN
  | Platform.Linux => linuxN

/-- `Platform::from_tag_name` (`platform_filter.rs` lines 49-57):
lowercase the name, then match the platform aliases. -/
def Platform.from_tag_name (name : List Char) : Option Platform :=
  let l := name.map Char.toLower
  if l = macosN ∨ l = macN ∨ l = darwinN then some Platform.MacOS
  else if l = windowsN ∨ l = winN then some Platform.Windows
  else if l = linuxN then some Platform.Linux
  else none

/-- The alternation of the block regex, in the regex's preference order. -/
def platformNames : List (List Char) :=
  [macosN, macN, darwinN, windowsN, winN, linuxN]

/-- The `target_names` lists of `filter_for_platform` and
`extract_current_platform_block`. -/
def targetNames : Platform → List (List Char)
  | Platform.MacOS => [macosN, macN, darwinN]
  | Platform.Windows => [windowsN, winN]
  | Platform.Linux => [linuxN]

/-- Match a literal, returning the remaining input. -/
def stripLit : List Char → List Char → Option (List Char)
  | [], s => some s
  | _ :: _, [] => none
  | c :: cs, d :: ds => if c = d then stripLit cs ds else none

/-- `\s*`: maximal whitespace munch (every literal that follows in the
pattern starts with a non-whitespace character, so this is equivalent to
the regex). -/
def dropWs (s : List Char) : List Char :=
  s.dropWhile isWsChar

/-- Try one alternation name followed by `\s*-->`. -/
def tryName (name s : List Char) : Option (List Char × List Char) :=
  match stripLit name s with
  | some r1 =>
    match stripLit litClose (dropWs r1) with
    | some r2 => some (name, r2)
    | none => none
  | none => none

/-- The alternation `(macos|mac|darwin|windows|win|linux)\s*-->` in
preference order. -/
def matchNames : List (List Char) → List Char → Option (List Char × List Char)
  | [], _ => none
  | n :: ns, s =>
    match tryName n s with
    | some r => some r
    | none => matchNames ns s

/-- The opening tag `<!--\s*platform:\s*(names)\s*-->`; returns the
captured name and the input after the tag. -/
def matchOpen (s : List Char) : Option (List Char × List Char) :=
  match stripLit litOpen s with
  | some r1 =>
    match stripLit litPlatformColon (dropWs r1) with
    | some r2 => matchNames platformNames (dropWs r2)
    | none => none
  | none => none

/-- The closing tag `<!--\s*end-platform\s*-->`. -/
def matchEnd (s : List Char) : Option (List Char) :=
  match stripLit litOpen s with
  | some r1 =>
    match stripLit litEndPlatform (dropWs r1) with
    | some r2 => stripLit litClose (dropWs r2)
    | none => none
  | none => none

/-- The non-greedy body `(.*?)` followed by the end tag: the shortest
body whose remainder starts with an end tag.  Returns
`(body, end-tag text, rest)`. -/
def findContentEnd : List Char → Option (List Char × List Char × List Char)
  | [] => none
  | c :: cs =>
    match matchEnd (c :: cs) with
    | some rest =>
      some ([], (c :: cs).take ((c :: cs).length - rest.length), rest)
    | none =>
      match findContentEnd cs with
      | some (content, endText, rest) => some (c :: content, endText, rest)
      | none => none

/-- One regex match: the unmatched text before it, the captured platform
name (group 1), the body (group 2), the opening- and closing-tag texts
and the input after the match. -/
structure PMatch where
  pre : List Char
  name : List Char
  content : List Char
  openText : List Char
  endText : List Char
  rest : List Char
  deriving DecidableEq, Repr

/-- `caps.get(0)`: the whole matched text. -/
def PMatch.full (m : PMatch) : List Char :=
  m.openText ++ m.content ++ m.endText

/-- A whole-pattern match anchored at the start of the input. -/
def matchOpenFull (s : List Char) : Option PMatch :=
  match matchOpen s with
  | some (name, afterOpen) =>
    match findContentEnd afterOpen with
    | some (content, endText, rest) =>
      some ⟨[], name, content, s.take (s.length - afterOpen.length),
        endText, rest⟩
    | none => none
  | none => none

/-- The leftmost match: try every start position left to right. -/
def findMatch : List Char → Option PMatch
  | [] => none
  | c :: cs =>
    match matchOpenFull (c :: cs) with
    | some m => some m
    | none =>
      match findMatch cs with
      | some m => some { m with pre := c :: m.pre }
      | none => none

/-- All matches in `captures_iter` order (leftmost, non-overlapping,
resuming after each match).  Fuelled by the input length: every match
consumes at least the opening tag. -/
def allMatchesAux : Nat → List Char → List PMatch
  | 0, _ => []
  | fuel + 1, s =>
    match findMatch s with
    | some m => m :: allMatchesAux fuel m.rest
    | none => []

def allMatches (s : List Char) : List PMatch :=
  allMatchesAux (s.length + 1) s

/-- The input left over after the last match (the whole input when there
is none). -/
def lastRest (s : List Char) : List Char :=
  ((allMatches s).getLast?).elim s PMatch.rest

/-- `Regex::replace_all` with a replacement computed from the two capture
groups: unmatched text is copied, each match is replaced, scanning
resumes after the match. -/
def replaceAllBlocks (f : List Char → List Char → List Char)
    (s : List Char) : List Char :=
  ((allMatches s).flatMap (fun m => m.pre ++ f m.name m.content)) ++
    lastRest s

/-- Step 1 of the merge: `PLATFORM_BLOCK_REGEX.replace_all(source, "")`. -/
def stripAllBlocks (s : List Char) : List Char :=
  replaceAllBlocks (fun _ _ => []) s

/-- `cleanup_blank_lines` (`platform_filter.rs` lines 104-110):
`Regex::new(r"\n{3,}").replace_all(content, "\n\n")` — every maximal run
of three or more newlines becomes exactly two, everything else is copied.
`n` counts the newlines of the run in progress. -/
def cleanupGo : Nat → List Char → List Char
  | n, [] => List.replicate (min n 2) '\n'
  | n, c :: rest =>
    if c = '\n' then cleanupGo (n + 1) rest
    else List.replicate (min n 2) '\n' ++ c :: cleanupGo 0 rest

def cleanup_blank_lines (s : List Char) : List Char :=
  cleanupGo 0 s

/-- `has_platform_blocks` (`platform_filter.rs` lines 113-115). -/
def has_platform_blocks (content : List Char) : Bool :=
  (findMatch content).isSome

/-- `filter_for_platform` (`platform_filter.rs` lines 79-101): keep the
body of blocks whose lowercased name is an alias of the target, drop
other blocks, then clean up blank lines. -/
def filter_for_platform (content : List Char) (target : Platform) :
    List Char :=
  cleanup_blank_lines (replaceAllBlocks
    (fun name body =>
      if (targetNames target).contains (name.map Char.toLower) then body
      else [])
    content)

/-- `extract_platform_blocks` (`platform_filter.rs` lines 118-128). -/
def extract_platform_blocks (content : List Char) :
    List (Platform × List Char) :=
  (allMatches content).filterMap
    (fun m => (Platform.from_tag_name m.name).map (fun p => (p, m.content)))

/-- `extract_current_platform_block` (`platform_filter.rs` lines
131-146): the first match whose lowercased name is an alias of the
platform, returned with its tags (`caps.get(0)`). -/
def extract_current_platform_block (content : List Char)
    (platform : Platform) : Option (List Char) :=
  ((allMatches content).find?
    (fun m => (targetNames platform).contains (m.name.map Char.toLower))).map
    PMatch.full

/-- `str::trim_end` (ASCII whitespace). -/
def trimEnd (s : List Char) : List Char :=
  (s.reverse.dropWhile isWsChar).reverse

/-- `merge_claude_md` (`platform_filter.rs` lines 154-168). -/
def merge_claude_md (source_content target_content : List Char)
    (current : Platform) : List Char :=
  let source_common := cleanup_blank_lines (stripAllBlocks source_content)
  match extract_current_platform_block target_content current with
  | some block => trimEnd source_common ++ '\n' :: (block ++ ['\n'])
  | none => source_common

/-! ### Structure of successful tag matches -/

def allWs (w : List Char) : Prop := ∀ c ∈ w, isWsChar c = true

def OpenTagText (w1 w2 n w3 : List Char) : List Char :=
  litOpen ++ w1 ++ litPlatformColon ++ w2 ++ n ++ w3 ++ litClose

def EndTagText (v1 v2 : List Char) : List Char :=
  litOpen ++ v1 ++ litEndPlatform ++ v2 ++ litClose

theorem stripLit_some (lit : List Char) :
    ∀ s r : List Char, stripLit lit s = some r ↔ s = lit ++ r := by
  induction lit with
  | nil =>
    intro s r
    constructor
    · intro h
      simp only [stripLit, Option.some.injEq] at h
      simp [h]
    · intro h
      simp only [List.nil_append] at h
      simp [stripLit, h]
  | cons c cs ih =>
    intro s r
    constructor
    · intro h
      cases s with
      | nil => simp [stripLit] at h
      | cons d ds =>
        simp only [stripLit] at h
        by_cases hc : c = d
        · rw [if_pos hc] at h
          rw [(ih ds r).mp h, ← hc, List.cons_append]
        · rw [if_neg hc] at h
          cases h
    · intro h
      subst h
      simp only [List.cons_append, stripLit, if_pos rfl]
      exact (ih _ r).mpr rfl

theorem dropWs_append (w : List Char) (hw : allWs w) (d : Char)
    (hd : isWsChar d = false) (r : List Char) :
    dropWs (w ++ d :: r) = d :: r := by
  induction w with
  | nil => simp [dropWs, List.dropWhile_cons, hd]
  | cons c w' ih =>
    have hc : isWsChar c = true := hw c (List.mem_cons_self _ _)
    simp only [dropWs, List.cons_append, List.dropWhile_cons, hc, if_true]
    exact ih (fun a ha => hw a (List.mem_cons_of_mem _ ha))

theorem dropWs_decomp (s : List Char) :
    ∃ w, s = w ++ dropWs s ∧ allWs w := by
  refine ⟨s.takeWhile isWsChar, ?_, ?_⟩
  · rw [dropWs, List.takeWhile_append_dropWhile]
  · intro c hc
    exact List.mem_takeWhile_imp hc

theorem matchEnd_decomp (s r : List Char) (h : matchEnd s = some r) :
    ∃ v1 v2, allWs v1 ∧ allWs v2 ∧ s = EndTagText v1 v2 ++ r := by
  unfold matchEnd at h
  rcases h1 : stripLit litOpen s with _ | r1
  · simp only [h1] at h
    cases h
  · simp only [h1] at h
    rcases h2 : stripLit litEndPlatform (dropWs r1) with _ | r2
    · simp only [h2] at h
      cases h
    · simp only [h2] at h
      have hs1 : s = litOpen ++ r1 := (stripLit_some _ _ _).mp h1
      obtain ⟨v1, hv1, hv1w⟩ := dropWs_decomp r1
      have hr1 : dropWs r1 = litEndPlatform ++ r2 :=
        (stripLit_some _ _ _).mp h2
      obtain ⟨v2, hv2, hv2w⟩ := dropWs_decomp r2
      have hr2 : dropWs r2 = litClose ++ r := (stripLit_some _ _ _).mp h
      refine ⟨v1, v2, hv1w, hv2w, ?_⟩
      rw [hs1, hv1, hr1, hv2, hr2]
      unfold EndTagText
      simp [List.append_assoc]

theorem matchEnd_build (v1 v2 r : List Char) (h1 : allWs v1)
    (h2 : allWs v2) :
    matchEnd (EndTagText v1 v2 ++ r) = some r := by
  have s1 : stripLit litOpen (EndTagText v1 v2 ++ r) =
      some (v1 ++ (litEndPlatform ++ (v2 ++ (litClose ++ r)))) := by
    apply (stripLit_some _ _ _).mpr
    unfold EndTagText
    simp [List.append_assoc]
  have s2 : dropWs (v1 ++ (litEndPlatform ++ (v2 ++ (litClose ++ r))))
      = litEndPlatform ++ (v2 ++ (litClose ++ r)) :=
    dropWs_append v1 h1 'e' (by decide) _
  have s3 : stripLit litEndPlatform
      (litEndPlatform ++ (v2 ++ (litClose ++ r))) =
      some (v2 ++ (litClose ++ r)) := (stripLit_some _ _ _).mpr rfl
  have s4 : dropWs (v2 ++ (litClose ++ r)) = litClose ++ r :=
    dropWs_append v2 h2 '-' (by decide) _
  have s5 : stripLit litClose (litClose ++ r) = some r :=
    (stripLit_some _ _ _).mpr rfl
  unfold matchEnd
  simp only [s1, s2, s3, s4, s5]

theorem tryName_decomp (n s nm r : List Char)
    (h : tryName n s = some (nm, r)) :
    nm = n ∧ ∃ w3, allWs w3 ∧ s = n ++ w3 ++ litClose ++ r := by
  unfold tryName at h
  rcases h1 : stripLit n s with _ | r1
  · simp only [h1] at h
    cases h
  · simp only [h1] at h
    rcases h2 : stripLit litClose (dropWs r1) with _ | r2
    · simp only [h2] at h
      cases h
    · simp only [h2, Option.some.injEq, Prod.mk.injEq] at h
      obtain ⟨hnm, hr⟩ := h
      subst hnm
      subst hr
      have hs := (stripLit_some _ _ _).mp h1
      obtain ⟨w3, hw3, hw3w⟩ := dropWs_decomp r1
      have hr1 := (stripLit_some _ _ _).mp h2
      refine ⟨rfl, w3, hw3w, ?_⟩
      rw [hs, hw3, hr1]
      simp [List.append_assoc]

theorem tryName_build (n w3 r : List Char) (hw : allWs w3) :
    tryName n (n ++ w3 ++ litClose ++ r) = some (n, r) := by
  have s1 : stripLit n (n ++ w3 ++ litClose ++ r) =
      some (w3 ++ (litClose ++ r)) := by
    apply (stripLit_some _ _ _).mpr
    simp [List.append_assoc]
  have s2 : dropWs (w3 ++ (litClose ++ r)) = litClose ++ r :=
    dropWs_append w3 hw '-' (by decide) _
  have s3 : stripLit litClose (litClose ++ r) = some r :=
    (stripLit_some _ _ _).mpr rfl
  unfold tryName
  simp only [s1, s2, s3]

theorem matchNames_decomp (ns : List (List Char)) (s nm r : List Char)
    (h : matchNames ns s = some (nm, r)) :
    nm ∈ ns ∧ ∃ w3, allWs w3 ∧ s = nm ++ w3 ++ litClose ++ r := by
  induction ns with
  | nil => cases h
  | cons n ns ih =>
    simp only [matchNames] at h
    rcases ht : tryName n s with _ | ⟨pn, pr⟩
    · simp only [ht] at h
      obtain ⟨hmem, hrest⟩ := ih h
      exact ⟨List.mem_cons_of_mem _ hmem, hrest⟩
    · simp only [ht, Option.some.injEq, Prod.mk.injEq] at h
      obtain ⟨hp1, hp2⟩ := h
      subst hp1
      subst hp2
      obtain ⟨hd, hrest⟩ := tryName_decomp _ _ _ _ ht
      subst hd
      exact ⟨List.mem_cons_self _ _, hrest⟩

theorem matchOpen_decomp (s n r : List Char) (h : matchOpen s = some (n, r)) :
    n ∈ platformNames ∧ ∃ w1 w2 w3, allWs w1 ∧ allWs w2 ∧ allWs w3 ∧
      s = OpenTagText w1 w2 n w3 ++ r := by
  unfold matchOpen at h
  rcases h1 : stripLit litOpen s with _ | r1
  · simp only [h1] at h
    cases h
  · simp only [h1] at h
    rcases h2 : stripLit litPlatformColon (dropWs r1) with _ | r2
    · simp only [h2] at h
      cases h
    · simp only [h2] at h
      obtain ⟨hmem, w3, hw3, hs3⟩ := matchNames_decomp _ _ _ _ h
      have hs : s = litOpen ++ r1 := (stripLit_some _ _ _).mp h1
      obtain ⟨w1, hw1, hw1w⟩ := dropWs_decomp r1
      have hr1 : dropWs r1 = litPlatformColon ++ r2 :=
        (stripLit_some _ _ _).mp h2
      obtain ⟨w2, hw2, hw2w⟩ := dropWs_decomp r2
      refine ⟨hmem, w1, w2, w3, hw1w, hw2w, hw3, ?_⟩
      rw [hs, hw1, hr1, hw2, hs3]
      unfold OpenTagText
      simp [List.append_assoc]

/-! ### Replaying a match in a new right context

A successful tag match reads only its own text: replaying it in front of
any other continuation succeeds identically.  For the alternation this
needs that every alternative tried before the matching one fails, which
holds because after a complete name the input continues with whitespace
or the dash of `-->`, never with a letter. -/

theorem stripLit_head_ne (c : Char) (cs : List Char) (d : Char)
    (ds : List Char) (h : ¬ c = d) : stripLit (c :: cs) (d :: ds) = none := by
  simp [stripLit, h]

theorem head_after_name (w3 r : List Char) (hw : allWs w3) :
    ∃ h t, w3 ++ (litClose ++ r) = h :: t ∧
      (h = '-' ∨ isWsChar h = true) := by
  cases w3 with
  | nil => exact ⟨'-', '-' :: '>' :: r, rfl, Or.inl rfl⟩
  | cons c w' =>
    exact ⟨c, w' ++ (litClose ++ r), rfl,
      Or.inr (hw c (List.mem_cons_self _ _))⟩

theorem stripLit_fail_after_name (c : Char) (cs : List Char)
    (w3 r : List Char) (hw : allWs w3) (hc1 : ¬ c = '-')
    (hc2 : isWsChar c = false) :
    stripLit (c :: cs) (w3 ++ (litClose ++ r)) = none := by
  obtain ⟨h, t, heq, hht⟩ := head_after_name w3 r hw
  rw [heq]
  apply stripLit_head_ne
  intro hch
  subst hch
  rcases hht with hh | hh
  · exact hc1 hh
  · rw [hh] at hc2
    cases hc2

theorem tryName_fail (al s : List Char) (h : stripLit al s = none) :
    tryName al s = none := by
  unfold tryName
  simp only [h]

theorem matchNames_rerun (n w3 r : List Char) (hn : n ∈ platformNames)
    (hw : allWs w3) :
    matchNames platformNames (n ++ (w3 ++ (litClose ++ r))) =
      some (n, r) := by
  have hbuild : tryName n (n ++ (w3 ++ (litClose ++ r))) = some (n, r) := by
    have := tryName_build n w3 r hw
    simpa [List.append_assoc] using this
  simp only [platformNames, List.mem_cons, List.mem_singleton,
    List.not_mem_nil, or_false] at hn
  rcases hn with rfl | rfl | rfl | rfl | rfl | rfl
  · simp only [platformNames, matchNames, hbuild]
  · -- n = mac: the alternative macos fails ('o' follows "mac")
    have h1 : tryName macosN (macN ++ (w3 ++ (litClose ++ r))) = none := by
      apply tryName_fail
      show stripLit macosN ('m' :: 'a' :: 'c' :: (w3 ++ (litClose ++ r))) =
        none
      have : stripLit ('o' :: 's' :: []) (w3 ++ (litClose ++ r)) = none :=
        stripLit_fail_after_name 'o' _ w3 r hw (by decide) (by decide)
      simp [macosN, stripLit, this]
    simp only [platformNames, matchNames, h1, hbuild]
  · -- n = darwin: macos and mac fail on the first character
    have h1 : tryName macosN (darwinN ++ (w3 ++ (litClose ++ r))) = none :=
      tryName_fail _ _ (stripLit_head_ne _ _ _ _ (by decide))
    have h2 : tryName macN (darwinN ++ (w3 ++ (litClose ++ r))) = none :=
      tryName_fail _ _ (stripLit_head_ne _ _ _ _ (by decide))
    simp only [platformNames, matchNames, h1, h2, hbuild]
  · -- n = windows
    have h1 : tryName macosN (windowsN ++ (w3 ++ (litClose ++ r))) = none :=
      tryName_fail _ _ (stripLit_head_ne _ _ _ _ (by decide))
    have h2 : tryName macN (windowsN ++ (w3 ++ (litClose ++ r))) = none :=
      tryName_fail _ _ (stripLit_head_ne _ _ _ _ (by decide))
    have h3 : tryName darwinN (windowsN ++ (w3 ++ (litClose ++ r))) = none :=
      tryName_fail _ _ (stripLit_head_ne _ _ _ _ (by decide))
    simp only [platformNames, matchNames, h1, h2, h3, hbuild]
  · -- n = win: windows fails ('d' follows "win")
    have h1 : tryName macosN (winN ++ (w3 ++ (litClose ++ r))) = none :=
      tryName_fail _ _ (stripLit_head_ne _ _ _ _ (by decide))
    have h2 : tryName macN (winN ++ (w3 ++ (litClose ++ r))) = none :=
      tryName_fail _ _ (stripLit_head_ne _ _ _ _ (by decide))
    have h3 : tryName darwinN (winN ++ (w3 ++ (litClose ++ r))) = none :=
      tryName_fail _ _ (stripLit_head_ne _ _ _ _ (by decide))
    have h4 : tryName windowsN (winN ++ (w3 ++ (litClose ++ r))) = none := by
      apply tryName_fail
      show stripLit windowsN ('w' :: 'i' :: 'n' :: (w3 ++ (litClose ++ r))) =
        none
      have : stripLit ('d' :: 'o' :: 'w' :: 's' :: [])
          (w3 ++ (litClose ++ r)) = none :=
        stripLit_fail_after_name 'd' _ w3 r hw (by decide) (by decide)
      simp [windowsN, stripLit, this]
    simp only [platformNames, matchNames, h1, h2, h3, h4, hbuild]
  · -- n = linux
    have h1 : tryName macosN (linuxN ++ (w3 ++ (litClose ++ r))) = none :=
      tryName_fail _ _ (stripLit_head_ne _ _ _ _ (by decide))
    have h2 : tryName macN (linuxN ++ (w3 ++ (litClose ++ r))) = none :=
      tryName_fail _ _ (stripLit_head_ne _ _ _ _ (by decide))
    have h3 : tryName darwinN (linuxN ++ (w3 ++ (litClose ++ r))) = none :=
      tryName_fail _ _ (stripLit_head_ne _ _ _ _ (by decide))
    have h4 : tryName windowsN (linuxN ++ (w3 ++ (litClose ++ r))) = none :=
      tryName_fail _ _ (stripLit_head_ne _ _ _ _ (by decide))
    have h5 : tryName winN (linuxN ++ (w3 ++ (litClose ++ r))) = none :=
      tryName_fail _ _ (stripLit_head_ne _ _ _ _ (by decide))
    simp only [platformNames, matchNames, h1, h2, h3, h4, h5, hbuild]

theorem matchOpen_build (w1 w2 n w3 r : List Char) (h1 : allWs w1)
    (h2 : allWs w2) (h3 : allWs w3) (hn : n ∈ platformNames) :
    matchOpen (OpenTagText w1 w2 n w3 ++ r) = some (n, r) := by
  have s1 : stripLit litOpen (OpenTagText w1 w2 n w3 ++ r) =
      some (w1 ++ (litPlatformColon ++ (w2 ++ (n ++ (w3 ++
        (litClose ++ r)))))) := by
    apply (stripLit_some _ _ _).mpr
    unfold OpenTagText
    simp [List.append_assoc]
  have s2 : dropWs (w1 ++ (litPlatformColon ++ (w2 ++ (n ++ (w3 ++
      (litClose ++ r)))))) = litPlatformColon ++ (w2 ++ (n ++ (w3 ++
      (litClose ++ r)))) :=
    dropWs_append w1 h1 'p' (by decide) _
  have s3 : stripLit litPlatformColon (litPlatformColon ++ (w2 ++ (n ++
      (w3 ++ (litClose ++ r))))) = some (w2 ++ (n ++ (w3 ++
      (litClose ++ r)))) := (stripLit_some _ _ _).mpr rfl
  have s4 : dropWs (w2 ++ (n ++ (w3 ++ (litClose ++ r)))) =
      n ++ (w3 ++ (litClose ++ r)) := by
    obtain ⟨c, cs, hcons⟩ : ∃ c cs, n = c :: cs ∧ isWsChar c = false := by
      simp only [platformNames, List.mem_cons, List.mem_singleton,
        List.not_mem_nil, or_false] at hn
      rcases hn with rfl | rfl | rfl | rfl | rfl | rfl <;>
        exact ⟨_, _, rfl, by decide⟩
    rw [hcons.1, List.cons_append]
    exact dropWs_append w2 h2 c hcons.2 _
  have s5 := matchNames_rerun n w3 r hn h3
  unfold matchOpen
  simp only [s1, s2, s3, s4, s5]

theorem take_of_append (s t r : List Char) (h : s = t ++ r) :
    s.take (s.length - r.length) = t := by
  subst h
  have hl : (t ++ r).length - r.length = t.length := by simp
  rw [hl, List.take_left]

/-- The body returned by `findContentEnd` is minimal: no end tag matches
at any position inside it, the returned end-tag text matches, and the
input decomposes as body ++ end tag ++ rest. -/
theorem findContentEnd_decomp (s c e r : List Char)
    (h : findContentEnd s = some (c, e, r)) :
    s = c ++ (e ++ r) ∧ matchEnd (e ++ r) = some r ∧
      (∀ c1 c2, c = c1 ++ c2 → c2 ≠ [] → matchEnd (c2 ++ (e ++ r)) = none) := by
  induction s generalizing c e r with
  | nil => cases h
  | cons x xs ih =>
    unfold findContentEnd at h
    rcases hme : matchEnd (x :: xs) with _ | rest
    · simp only [hme] at h
      rcases hfc : findContentEnd xs with _ | ⟨c', e', r'⟩
      · simp only [hfc] at h
        cases h
      · simp only [hfc, Option.some.injEq, Prod.mk.injEq] at h
        obtain ⟨hc, he, hr⟩ := h
        subst hc
        subst he
        subst hr
        obtain ⟨hxs, hend, hmin⟩ := ih _ _ _ hfc
        refine ⟨by rw [hxs, List.cons_append], hend, ?_⟩
        intro c1 c2 hsplit hne
        cases c1 with
        | nil =>
          simp only [List.nil_append] at hsplit
          rw [← hsplit, List.cons_append, ← hxs, hme]
        | cons y c1' =>
          rw [List.cons_append] at hsplit
          injection hsplit with hy hrest
          exact hmin c1' c2 hrest hne
    · simp only [hme, Option.some.injEq, Prod.mk.injEq] at h
      obtain ⟨hc, he, hr⟩ := h
      subst hc
      subst hr
      obtain ⟨v1, v2, hv1, hv2, hxs⟩ := matchEnd_decomp _ _ hme
      have htake := take_of_append _ _ _ hxs
      rw [htake] at he
      subst he
      refine ⟨by rw [List.nil_append]; exact hxs, by rw [← hxs]; exact hme, ?_⟩
      intro c1 c2 hsplit hne
      have : c2 = [] := by
        rcases c1 with _ | ⟨z, c1'⟩
        · simpa using hsplit.symm
        · cases hsplit
      exact absurd this hne

/-- The invariants a produced match carries. -/
def MatchInv (m : PMatch) : Prop :=
  m.name ∈ platformNames ∧
  (∃ w1 w2 w3, allWs w1 ∧ allWs w2 ∧ allWs w3 ∧
    m.openText = OpenTagText w1 w2 m.name w3) ∧
  (∃ v1 v2, allWs v1 ∧ allWs v2 ∧ m.endText = EndTagText v1 v2) ∧
  (∀ c1 c2, m.content = c1 ++ c2 → c2 ≠ [] →
    matchEnd (c2 ++ (m.endText ++ m.rest)) = none)

theorem matchOpenFull_decomp (s : List Char) (m : PMatch)
    (h : matchOpenFull s = some m) :
    m.pre = [] ∧ MatchInv m ∧
      s = m.openText ++ (m.content ++ (m.endText ++ m.rest)) := by
  unfold matchOpenFull at h
  rcases ho : matchOpen s with _ | ⟨name, afterOpen⟩
  · simp only [ho] at h
    cases h
  · simp only [ho] at h
    rcases hf : findContentEnd afterOpen with _ | ⟨content, endText, rest⟩
    · simp only [hf] at h
      cases h
    · simp only [hf, Option.some.injEq] at h
      subst h
      obtain ⟨hmem, w1, w2, w3, hw1, hw2, hw3, hs⟩ :=
        matchOpen_decomp _ _ _ ho
      have htake : s.take (s.length - afterOpen.length) =
          OpenTagText w1 w2 name w3 := take_of_append _ _ _ hs
      obtain ⟨hafter, hend, hmin⟩ := findContentEnd_decomp _ _ _ _ hf
      obtain ⟨v1, v2, hv1, hv2, hee⟩ := matchEnd_decomp _ _ hend
      have hendText : endText = EndTagText v1 v2 :=
        List.append_cancel_right (by rw [← hee])
      refine ⟨rfl, ⟨hmem, ⟨w1, w2, w3, hw1, hw2, hw3, by
        simpa using htake⟩, ⟨v1, v2, hv1, hv2, hendText⟩, ?_⟩, ?_⟩
      · intro c1 c2 hsplit hne
        exact hmin c1 c2 hsplit hne
      · rw [hs, hafter]
        simp [htake]

theorem OpenTagText_ne_nil (w1 w2 n w3 : List Char) :
    OpenTagText w1 w2 n w3 ≠ [] := by
  simp [OpenTagText, litOpen]

theorem findMatch_decomp (s : List Char) (m : PMatch)
    (h : findMatch s = some m) :
    s = m.pre ++ (m.openText ++ (m.content ++ (m.endText ++ m.rest))) ∧
      MatchInv m ∧ m.openText ≠ [] := by
  induction s generalizing m with
  | nil => cases h
  | cons x xs ih =>
    unfold findMatch at h
    rcases ho : matchOpenFull (x :: xs) with _ | m0
    · simp only [ho] at h
      rcases hf : findMatch xs with _ | m1
      · simp only [hf] at h
        cases h
      · simp only [hf, Option.some.injEq] at h
        subst h
        obtain ⟨hxs, hinv, hne⟩ := ih m1 hf
        refine ⟨?_, hinv, hne⟩
        simp only [List.cons_append]
        rw [← hxs]
    · simp only [ho, Option.some.injEq] at h
      subst h
      obtain ⟨hpre, hinv, hs⟩ := matchOpenFull_decomp _ _ ho
      refine ⟨?_, hinv, ?_⟩
      · rw [hpre, List.nil_append, ← hs]
      · obtain ⟨-, ⟨w1, w2, w3, -, -, -, hopen⟩, -, -⟩ := hinv
        rw [hopen]
        exact OpenTagText_ne_nil _ _ _ _

theorem findMatch_rest_lt (s : List Char) (m : PMatch)
    (h : findMatch s = some m) : m.rest.length < s.length := by
  obtain ⟨hs, -, hne⟩ := findMatch_decomp s m h
  have := congrArg List.length hs
  simp only [List.length_append] at this
  have hopen : 0 < m.openText.length := List.length_pos.mpr hne
  omega

theorem matchOpenFull_none_head (s : List Char)
    (h : ∀ c t, s = c :: t → ¬ c = '<') : matchOpenFull s = none := by
  cases s with
  | nil => rfl
  | cons c t =>
    have hne : ¬ '<' = c := fun hh => h c t rfl hh.symm
    have : stripLit litOpen (c :: t) = none := stripLit_head_ne _ _ _ _ hne
    unfold matchOpenFull matchOpen
    simp only [this]

theorem findMatch_none_of_no_lt (s : List Char) (h : '<' ∉ s) :
    findMatch s = none := by
  induction s with
  | nil => rfl
  | cons c t ih =>
    have h1 : matchOpenFull (c :: t) = none := by
      apply matchOpenFull_none_head
      intro c' t' heq hc
      injection heq with h1 h2
      subst h1
      subst hc
      exact h (List.mem_cons_self _ _)
    have h2 : findMatch t = none := ih (fun hm => h (List.mem_cons_of_mem _ hm))
    unfold findMatch
    simp only [h1, h2]

theorem findMatch_skip (a s : List Char) (h : '<' ∉ a) :
    findMatch (a ++ s) =
      (findMatch s).map (fun m => { m with pre := a ++ m.pre }) := by
  induction a with
  | nil =>
    simp only [List.nil_append]
    cases findMatch s <;> simp
  | cons c a' ih =>
    have hc : ¬ c = '<' := fun hh => h (hh ▸ List.mem_cons_self _ _)
    have h1 : matchOpenFull (c :: (a' ++ s)) = none := by
      apply matchOpenFull_none_head
      intro c' t' heq hcc
      injection heq with hh1 hh2
      subst hh1
      exact hc hcc
    have ih' := ih (fun hm => h (List.mem_cons_of_mem _ hm))
    show findMatch (c :: (a' ++ s)) = _
    conv_lhs => rw [findMatch]
    simp only [h1, ih']
    cases findMatch s <;> simp

theorem allMatchesAux_congr (bound : Nat) :
    ∀ (s : List Char) (f g : Nat), s.length < f → s.length < g →
      s.length ≤ bound → allMatchesAux f s = allMatchesAux g s := by
  induction bound with
  | zero =>
    intro s f g hf hg hb
    have hs : s = [] := List.length_eq_zero.mp (Nat.le_antisymm hb (Nat.zero_le _))
    subst hs
    rcases f with _ | f'
    · cases hf
    · rcases g with _ | g'
      · cases hg
      · rfl
  | succ bound ih =>
    intro s f g hf hg hb
    rcases f with _ | f'
    · cases hf
    · rcases g with _ | g'
      · cases hg
      · show allMatchesAux (f' + 1) s = allMatchesAux (g' + 1) s
        unfold allMatchesAux
        rcases hm : findMatch s with _ | m
        · rfl
        · have hlt := findMatch_rest_lt s m hm
          have h1 : m.rest.length < f' := by omega
          have h2 : m.rest.length < g' := by omega
          have h3 : m.rest.length ≤ bound := by omega
          dsimp only
          rw [ih m.rest f' g' h1 h2 h3]

theorem allMatchesAux_succ (f : Nat) (s : List Char) :
    allMatchesAux (f + 1) s = match findMatch s with
      | some m => m :: allMatchesAux f m.rest
      | none => [] := rfl

theorem allMatches_eq (s : List Char) :
    allMatches s = match findMatch s with
      | some m => m :: allMatches m.rest
      | none => [] := by
  show allMatchesAux (s.length + 1) s = _
  rw [allMatchesAux_succ]
  rcases hm : findMatch s with _ | m
  · rfl
  · dsimp only
    have hlt := findMatch_rest_lt s m hm
    show _ = m :: allMatchesAux (m.rest.length + 1) m.rest
    rw [allMatchesAux_congr m.rest.length m.rest s.length
      (m.rest.length + 1) hlt (by omega) (by omega)]

theorem allMatches_inv_aux (bound : Nat) :
    ∀ (s : List Char), s.length ≤ bound →
      ∀ m ∈ allMatches s, MatchInv m := by
  induction bound with
  | zero =>
    intro s hb m hm
    have hs : s = [] := List.length_eq_zero.mp (Nat.le_antisymm hb (Nat.zero_le _))
    subst hs
    rw [allMatches_eq] at hm
    simp only [findMatch] at hm
    cases hm
  | succ bound ih =>
    intro s hb m hm
    rw [allMatches_eq] at hm
    rcases hf : findMatch s with _ | m0
    · simp only [hf] at hm
      cases hm
    · simp only [hf] at hm
      rcases List.mem_cons.mp hm with rfl | hm
      · exact (findMatch_decomp s m hf).2.1
      · have hlt := findMatch_rest_lt s m0 hf
        exact ih m0.rest (by omega) m hm

theorem allMatches_inv (s : List Char) : ∀ m ∈ allMatches s, MatchInv m :=
  allMatches_inv_aux s.length s (Nat.le_refl _)

theorem lastRest_eq (s : List Char) :
    lastRest s = match findMatch s with
      | some m => lastRest m.rest
      | none => s := by
  rcases hf : findMatch s with _ | m
  · unfold lastRest
    rw [allMatches_eq, hf]
    dsimp only
    simp
  · unfold lastRest
    rw [allMatches_eq, hf]
    dsimp only
    rcases h2 : allMatches m.rest with _ | ⟨m1, ms⟩
    · simp
    · rw [List.getLast?_cons_cons]
      rcases h3 : (m1 :: ms).getLast? with _ | mlast
      · exact absurd h3 (by simp)
      · simp [h3]

theorem replaceAll_eq (f : List Char → List Char → List Char)
    (s : List Char) :
    replaceAllBlocks f s = match findMatch s with
      | some m => m.pre ++ (f m.name m.content ++ replaceAllBlocks f m.rest)
      | none => s := by
  rcases hf : findMatch s with _ | m
  · unfold replaceAllBlocks
    rw [allMatches_eq, hf, lastRest_eq, hf]
    rfl
  · unfold replaceAllBlocks
    rw [allMatches_eq, hf, lastRest_eq, hf]
    simp [List.append_assoc]

theorem EndTagText_getLast (v1 v2 : List Char) :
    (EndTagText v1 v2).getLast? = some '>' := by
  unfold EndTagText
  rw [List.getLast?_append]
  rfl

/-- An end-tag failure inside a body survives replacing the old right
context by a single newline: a successful end match ends in `>`, so it
cannot swallow the trailing newline, and any match fitting before it
would contradict the failure in the old context. -/
theorem matchEnd_none_transfer (c2 e r : List Char)
    (hfail : matchEnd (c2 ++ (e ++ r)) = none) :
    matchEnd (c2 ++ (e ++ ['\n'])) = none := by
  rcases hnew : matchEnd (c2 ++ (e ++ ['\n'])) with _ | r3
  · rfl
  · exfalso
    obtain ⟨u1, u2, hu1, hu2, heq⟩ := matchEnd_decomp _ _ hnew
    rcases r3 with _ | ⟨z, r3'⟩
    · rw [List.append_nil] at heq
      have h1 : (c2 ++ (e ++ ['\n'])).getLast? = some '\n' := by
        rw [← List.append_assoc, List.getLast?_append]
        rfl
      rw [heq, EndTagText_getLast] at h1
      cases h1
    · have hne : z :: r3' ≠ [] := by simp
      have hlast : (z :: r3').getLast? = some '\n' := by
        have h1 : (c2 ++ (e ++ ['\n'])).getLast? = some '\n' := by
          rw [← List.append_assoc, List.getLast?_append]
          rfl
        rw [heq, List.getLast?_append] at h1
        rcases hgl : (z :: r3').getLast? with _ | w
        · rw [List.getLast?_eq_getLast _ hne] at hgl
          cases hgl
        · rw [hgl] at h1
          simpa using h1
      have hsplit : z :: r3' = (z :: r3').dropLast ++ ['\n'] := by
        conv_lhs => rw [← List.dropLast_append_getLast hne]
        rw [List.getLast?_eq_getLast _ hne] at hlast
        rw [Option.some.injEq] at hlast
        rw [hlast]
      rw [hsplit] at heq
      have hcancel : c2 ++ e = EndTagText u1 u2 ++ (z :: r3').dropLast := by
        have h2 : (c2 ++ e) ++ ['\n'] =
            (EndTagText u1 u2 ++ (z :: r3').dropLast) ++ ['\n'] := by
          rw [List.append_assoc, heq]
          simp [List.append_assoc]
        exact List.append_cancel_right h2
      have : matchEnd (c2 ++ (e ++ r)) =
          some ((z :: r3').dropLast ++ r) := by
        have h2 : c2 ++ (e ++ r) =
            EndTagText u1 u2 ++ ((z :: r3').dropLast ++ r) := by
          rw [← List.append_assoc, hcancel]
          simp [List.append_assoc]
        rw [h2]
        exact matchEnd_build u1 u2 _ hu1 hu2
      rw [hfail] at this
      cases this

theorem findContentEnd_rerun (c e r : List Char)
    (hmin : ∀ c1 c2, c = c1 ++ c2 → c2 ≠ [] →
      matchEnd (c2 ++ (e ++ r)) = none)
    (hend : matchEnd (e ++ r) = some r) :
    findContentEnd (c ++ (e ++ ['\n'])) = some (c, e, ['\n']) := by
  obtain ⟨v1, v2, hv1, hv2, hee⟩ := matchEnd_decomp _ _ hend
  have hestruct : e = EndTagText v1 v2 :=
    List.append_cancel_right (by rw [← hee])
  have hend2 : matchEnd (e ++ ['\n']) = some ['\n'] := by
    rw [hestruct]
    exact matchEnd_build v1 v2 _ hv1 hv2
  induction c with
  | nil =>
    rw [List.nil_append]
    obtain ⟨e', he'⟩ : ∃ e', e ++ ['\n'] = '<' :: e' := by
      rw [hestruct]
      exact ⟨_, rfl⟩
    rw [he']
    unfold findContentEnd
    rw [← he']
    simp only [hend2]
    have htake := take_of_append (e ++ ['\n']) e ['\n'] rfl
    rw [htake]
  | cons a c' ih =>
    have hfail0 : matchEnd ((a :: c') ++ (e ++ r)) = none :=
      hmin [] (a :: c') rfl (by simp)
    have hfailNew : matchEnd ((a :: c') ++ (e ++ ['\n'])) = none :=
      matchEnd_none_transfer _ _ _ hfail0
    have ih' := ih (fun c1 c2 hsplit hne =>
      hmin (a :: c1) c2 (by rw [hsplit, List.cons_append]) hne)
    show findContentEnd (a :: (c' ++ (e ++ ['\n']))) = _
    unfold findContentEnd
    have hfailNew' : matchEnd (a :: (c' ++ (e ++ ['\n']))) = none := by
      rw [← List.cons_append]
      exact hfailNew
    simp only [hfailNew', ih']

theorem matchOpenFull_build (m : PMatch) (hinv : MatchInv m) :
    matchOpenFull (PMatch.full m ++ ['\n']) =
      some ⟨[], m.name, m.content, m.openText, m.endText, ['\n']⟩ := by
  obtain ⟨hn, ⟨w1, w2, w3, hw1, hw2, hw3, hopen⟩,
    ⟨v1, v2, hv1, hv2, hendt⟩, hmin⟩ := hinv
  have hfull : PMatch.full m ++ ['\n'] =
      m.openText ++ (m.content ++ (m.endText ++ ['\n'])) := by
    unfold PMatch.full
    simp [List.append_assoc]
  have hmo : matchOpen (PMatch.full m ++ ['\n']) =
      some (m.name, m.content ++ (m.endText ++ ['\n'])) := by
    rw [hfull, hopen]
    exact matchOpen_build w1 w2 m.name w3 _ hw1 hw2 hw3 hn
  have hend : matchEnd (m.endText ++ m.rest) = some m.rest := by
    rw [hendt]
    exact matchEnd_build v1 v2 _ hv1 hv2
  have hfc : findContentEnd (m.content ++ (m.endText ++ ['\n'])) =
      some (m.content, m.endText, ['\n']) :=
    findContentEnd_rerun m.content m.endText m.rest hmin hend
  have htake : (PMatch.full m ++ ['\n']).take
      ((PMatch.full m ++ ['\n']).length -
        (m.content ++ (m.endText ++ ['\n'])).length) = m.openText :=
    take_of_append _ _ _ hfull
  unfold matchOpenFull
  simp only [hmo, hfc, htake]

theorem findMatch_block (blk : List Char) (m : PMatch) (hinv : MatchInv m)
    (hblk : blk = PMatch.full m) :
    findMatch (blk ++ ['\n']) =
      some ⟨[], m.name, m.content, m.openText, m.endText, ['\n']⟩ := by
  subst hblk
  have hb := matchOpenFull_build m hinv
  obtain ⟨x, xs, hxx⟩ : ∃ x xs, PMatch.full m ++ ['\n'] = x :: xs := by
    obtain ⟨-, ⟨w1, w2, w3, -, -, -, hopen⟩, -, -⟩ := hinv
    rcases hft : PMatch.full m ++ ['\n'] with _ | ⟨x, xs⟩
    · exfalso
      have := congrArg List.length hft
      simp at this
    · exact ⟨x, xs, rfl⟩
  rw [hxx]
  rw [hxx] at hb
  conv_lhs => rw [findMatch]
  simp only [hb]

theorem mem_cleanupGo (c : Char) (n : Nat) (s : List Char)
    (h : c ∈ cleanupGo n s) : c = '\n' ∨ c ∈ s := by
  induction s generalizing n with
  | nil =>
    unfold cleanupGo at h
    exact Or.inl (List.eq_of_mem_replicate h)
  | cons d rest ih =>
    unfold cleanupGo at h
    by_cases hd : d = '\n'
    · rw [if_pos hd] at h
      rcases ih (n + 1) h with hc | hc
      · exact Or.inl hc
      · exact Or.inr (List.mem_cons_of_mem _ hc)
    · rw [if_neg hd] at h
      rcases List.mem_append.mp h with hc | hc
      · exact Or.inl (List.eq_of_mem_replicate hc)
      · rcases List.mem_cons.mp hc with rfl | hc
        · exact Or.inr (List.mem_cons_self _ _)
        · rcases ih 0 hc with hc2 | hc2
          · exact Or.inl hc2
          · exact Or.inr (List.mem_cons_of_mem _ hc2)

theorem not_lt_cleanup (s : List Char) (h : '<' ∉ s) :
    '<' ∉ cleanup_blank_lines s := by
  intro hmem
  rcases mem_cleanupGo _ _ _ hmem with hc | hc
  · cases hc
  · exact h hc

theorem mem_trimEnd (c : Char) (s : List Char) (h : c ∈ trimEnd s) :
    c ∈ s := by
  unfold trimEnd at h
  rw [List.mem_reverse] at h
  have := (List.dropWhile_sublist isWsChar).subset h
  rwa [List.mem_reverse] at this

theorem names_lower :
    ∀ n ∈ platformNames, n.map Char.toLower = n := by decide

theorem from_tag_of_target (n : List Char) (hn : n ∈ platformNames)
    (P : Platform) (hP : n ∈ targetNames P) :
    Platform.from_tag_name n = some P := by
  simp only [platformNames, List.mem_cons, List.mem_singleton,
    List.not_mem_nil, or_false] at hn
  cases P <;> rcases hn with rfl | rfl | rfl | rfl | rfl | rfl <;>
    revert hP <;> decide

/-- C4 core, first half: when the source text outside its tagged blocks
contains no `<`, every block the extractor finds in the merge output is
the target's current-platform block. -/
theorem merge_no_foreign_blocks (src tgt : List Char) (P : Platform)
    (hs : '<' ∉ stripAllBlocks src) :
    ∀ pr ∈ extract_platform_blocks (merge_claude_md src tgt P),
      pr.1 = P := by
  intro pr hpr
  have hnolt : '<' ∉ cleanup_blank_lines (stripAllBlocks src) :=
    not_lt_cleanup _ hs
  unfold merge_claude_md at hpr
  rcases hx : extract_current_platform_block tgt P with _ | blk
  · simp only [hx] at hpr
    have hfm : findMatch (cleanup_blank_lines (stripAllBlocks src)) = none :=
      findMatch_none_of_no_lt _ hnolt
    unfold extract_platform_blocks at hpr
    rw [allMatches_eq, hfm] at hpr
    cases hpr
  · simp only [hx] at hpr
    obtain ⟨m, hfind, hfull⟩ :
        ∃ m, (allMatches tgt).find?
          (fun m => (targetNames P).contains (m.name.map Char.toLower)) =
            some m ∧ PMatch.full m = blk := by
      unfold extract_current_platform_block at hx
      exact Option.map_eq_some'.mp hx
    have hmem := List.mem_of_find?_eq_some hfind
    have hpred := List.find?_some hfind
    have hinv := allMatches_inv tgt m hmem
    set common := cleanup_blank_lines (stripAllBlocks src) with hcommon
    have hA : '<' ∉ trimEnd common ++ ['\n'] := by
      intro hmemA
      rcases List.mem_append.mp hmemA with hc | hc
      · exact hnolt (mem_trimEnd _ _ hc)
      · simp at hc
    have hmerged : trimEnd common ++ '\n' :: (blk ++ ['\n']) =
        (trimEnd common ++ ['\n']) ++ (blk ++ ['\n']) := by
      rw [List.append_assoc]
      rfl
    rw [hmerged] at hpr
    have hfm1 : findMatch (blk ++ ['\n']) =
        some ⟨[], m.name, m.content, m.openText, m.endText, ['\n']⟩ :=
      findMatch_block blk m hinv hfull.symm
    have hfm2 : findMatch ((trimEnd common ++ ['\n']) ++ (blk ++ ['\n'])) =
        some ⟨(trimEnd common ++ ['\n']) ++ [], m.name, m.content,
          m.openText, m.endText, ['\n']⟩ := by
      rw [findMatch_skip _ _ hA, hfm1]
      rfl
    have hnl : allMatches (['\n'] : List Char) = [] := by
      rw [allMatches_eq, findMatch_none_of_no_lt]
      decide
    have hall : allMatches ((trimEnd common ++ ['\n']) ++ (blk ++ ['\n'])) =
        [⟨(trimEnd common ++ ['\n']) ++ [], m.name, m.content,
          m.openText, m.endText, ['\n']⟩] := by
      rw [allMatches_eq, hfm2]
      simp only [hnl]
    unfold extract_platform_blocks at hpr
    rw [hall] at hpr
    have hft : Platform.from_tag_name m.name = some P := by
      apply from_tag_of_target m.name hinv.1 P
      have hlow := names_lower m.name hinv.1
      rw [hlow] at hpred
      exact List.mem_of_elem_eq_true hpred
    simp only [List.filterMap, hft, Option.map_some'] at hpr
    rcases List.mem_cons.mp hpr with rfl | hpr
    · rfl
    · cases hpr

/-! ### Lines of a document and the text outside tagged blocks -/

/-- The lines of a document (split on every newline). -/
def linesOf (s : List Char) : List (List Char) :=
  splitSep '\n' s

def concatAll (ls : List (List Char)) : List Char :=
  ls.foldr (fun a b => a ++ b) []

/-- The unmatched segments of a document, in order: the text before each
match and the text after the last match. -/
def splitBlocks (s : List Char) : List (List Char) :=
  (allMatches s).map PMatch.pre ++ [lastRest s]

theorem concatAll_nil : concatAll [] = [] := rfl

theorem concatAll_cons (a : List Char) (ls : List (List Char)) :
    concatAll (a :: ls) = a ++ concatAll ls := rfl

theorem concatAll_append (u v : List (List Char)) :
    concatAll (u ++ v) = concatAll u ++ concatAll v := by
  induction u with
  | nil => rfl
  | cons a u ih =>
    rw [List.cons_append, concatAll_cons, concatAll_cons, ih,
      List.append_assoc]

theorem stripAll_join_aux (bound : Nat) :
    ∀ s : List Char, s.length ≤ bound →
      stripAllBlocks s = concatAll (splitBlocks s) := by
  induction bound with
  | zero =>
    intro s hb
    have hs : s = [] := List.length_eq_zero.mp (Nat.le_antisymm hb (Nat.zero_le _))
    subst hs
    rfl
  | succ bound ih =>
    intro s hb
    unfold stripAllBlocks
    rw [replaceAll_eq]
    unfold splitBlocks
    rw [allMatches_eq, lastRest_eq]
    rcases hf : findMatch s with _ | m
    · dsimp only
      simp [concatAll_cons, concatAll_nil]
    · dsimp only
      have hlt := findMatch_rest_lt s m hf
      have := ih m.rest (by omega)
      unfold stripAllBlocks at this
      rw [List.map_cons, List.cons_append, concatAll_cons]
      rw [List.nil_append, this]
      rfl

theorem stripAll_join (s : List Char) :
    stripAllBlocks s = concatAll (splitBlocks s) :=
  stripAll_join_aux s.length s (Nat.le_refl _)

theorem get?_split (l : List (List Char)) (i : Nat) (x : List Char)
    (h : l.get? i = some x) :
    l = l.take i ++ x :: l.drop (i + 1) := by
  have hlt : i < l.length := by
    by_contra hge
    rw [List.get?_eq_none.mpr (by omega)] at h
    cases h
  have hx : l[i] = x := by
    have := List.get?_eq_get hlt
    rw [this] at h
    injection h
  have h2 : l.drop i = l[i] :: l.drop (i + 1) := List.drop_eq_getElem_cons hlt
  conv_lhs => rw [← List.take_append_drop i l]
  rw [h2, hx]

theorem splitSep_length (sep : Char) (s : List Char) :
    (splitSep sep s).length = s.count sep + 1 := by
  induction s with
  | nil => rfl
  | cons c rest ih =>
    by_cases hc : c = sep
    · subst hc
      simp only [splitSep, eq_self_iff_true, if_true, List.length_cons, ih]
      rw [List.count_cons_self]
    · rcases hsr : splitSep sep rest with _ | ⟨l, ls⟩
      · exact absurd hsr (splitSep_ne_nil sep rest)
      · simp only [splitSep, if_neg hc, hsr, List.length_cons]
        rw [List.count_cons_of_ne (fun hh => hc hh.symm), ← ih, hsr,
          List.length_cons]

theorem splitSep_no_sep (sep : Char) (l : List Char) (h : sep ∉ l) :
    splitSep sep l = [l] := by
  induction l with
  | nil => rfl
  | cons c rest ih =>
    have hc : ¬ c = sep := fun hh => h (hh ▸ List.mem_cons_self _ _)
    have ih' := ih (fun hm => h (List.mem_cons_of_mem _ hm))
    simp only [splitSep, if_neg hc, ih']

theorem splitSep_line_append (sep : Char) (l b : List Char) (h : sep ∉ l) :
    splitSep sep (l ++ sep :: b) = l :: splitSep sep b := by
  induction l with
  | nil =>
    simp only [List.nil_append, splitSep, eq_self_iff_true, if_true]
  | cons c rest ih =>
    have hc : ¬ c = sep := fun hh => h (hh ▸ List.mem_cons_self _ _)
    have ih' := ih (fun hm => h (List.mem_cons_of_mem _ hm))
    simp only [List.cons_append, splitSep, if_neg hc, List.append_eq, ih']

theorem splitSep_append_last_sep (sep : Char) (a s : List Char)
    (h : a.getLast? = some sep) :
    splitSep sep (a ++ s) = (splitSep sep a).dropLast ++ splitSep sep s := by
  induction a with
  | nil => cases h
  | cons c a' ih =>
    by_cases ha'ne : a' = []
    · subst ha'ne
      have hc : c = sep := by simpa using h
      subst hc
      simp only [List.cons_append, List.nil_append, splitSep,
        eq_self_iff_true, if_true]
      rfl
    · obtain ⟨d, a'', hda⟩ := List.exists_cons_of_ne_nil ha'ne
      have hlast : a'.getLast? = some sep := by
        rw [hda]
        rw [hda, List.getLast?_cons_cons] at h
        exact h
      have ih' := ih hlast
      obtain ⟨l, ls, hsplit⟩ : ∃ l ls, splitSep sep a' = l :: ls := by
        rcases hsr : splitSep sep a' with _ | ⟨l, ls⟩
        · exact absurd hsr (splitSep_ne_nil sep a')
        · exact ⟨l, ls, rfl⟩
      have hmem : sep ∈ a' := List.mem_of_mem_getLast? hlast
      have hlen : 2 ≤ (splitSep sep a').length := by
        rw [splitSep_length]
        have := List.one_le_count_iff.mpr hmem
        omega
      have hls : ls ≠ [] := by
        intro hnil
        rw [hsplit, hnil] at hlen
        simp at hlen
      have hrew : splitSep sep (a' ++ s) =
          l :: (ls.dropLast ++ splitSep sep s) := by
        rw [ih', hsplit, List.dropLast_cons_of_ne_nil hls, List.cons_append]
      by_cases hc : c = sep
      · subst hc
        simp only [List.cons_append, splitSep, eq_self_iff_true, if_true,
          List.append_eq, hrew, hsplit]
        rw [List.dropLast_cons_of_ne_nil (show l :: ls ≠ [] by simp),
          List.dropLast_cons_of_ne_nil hls, List.cons_append,
          List.cons_append]
      · simp only [List.cons_append, splitSep, if_neg hc, List.append_eq,
          hrew, hsplit]
        rw [List.dropLast_cons_of_ne_nil hls, List.cons_append]

theorem replicate_getLast_nl (k : Nat) :
    (List.replicate (k + 1) '\n').getLast? = some '\n' := by
  rw [List.replicate_succ', List.getLast?_concat]

/-- `cleanupGo` copies a nonempty newline-free chunk verbatim, first
flushing the pending run. -/
theorem cleanupGo_no_nl (t : List Char) :
    ∀ (a : List Char), '\n' ∉ a → ∀ n, a ≠ [] →
      cleanupGo n (a ++ t) =
        List.replicate (min n 2) '\n' ++ a ++ cleanupGo 0 t := by
  intro a
  induction a with
  | nil =>
    intro ha n hne
    exact absurd rfl hne
  | cons c a' ih =>
    intro ha n hne
    have hc : ¬ c = '\n' := fun hh => ha (hh ▸ List.mem_cons_self _ _)
    by_cases ha' : a' = []
    · subst ha'
      simp only [List.cons_append, List.nil_append, cleanupGo, if_neg hc]
      simp [List.append_assoc]
    · have ih' := ih (fun hm => ha (List.mem_cons_of_mem _ hm)) 0 ha'
      have hstep : cleanupGo n ((c :: a') ++ t) =
          if c = '\n' then cleanupGo (n + 1) (a' ++ t)
          else List.replicate (min n 2) '\n' ++ c :: cleanupGo 0 (a' ++ t) :=
        rfl
      rw [hstep, if_neg hc, ih']
      simp [List.append_assoc]

/-- Output of `cleanupGo` with a pending newline starts with a newline. -/
theorem cleanupGo_head_nl :
    ∀ (t : List Char) (m : Nat), 1 ≤ m →
      (cleanupGo m t).head? = some '\n' := by
  intro t
  induction t with
  | nil =>
    intro m hm
    show (List.replicate (min m 2) '\n').head? = some '\n'
    have h2 : min m 2 = (min m 2 - 1) + 1 := by omega
    rw [h2, List.replicate_succ]
    rfl
  | cons c t ih =>
    intro m hm
    by_cases hc : c = '\n'
    · subst hc
      have hstep : cleanupGo m ('\n' :: t) =
          if ('\n' : Char) = '\n' then cleanupGo (m + 1) t
          else List.replicate (min m 2) '\n' ++ '\n' :: cleanupGo 0 t :=
        rfl
      rw [hstep, if_pos rfl]
      exact ih (m + 1) (by omega)
    · have hstep : cleanupGo m (c :: t) =
          if c = '\n' then cleanupGo (m + 1) t
          else List.replicate (min m 2) '\n' ++ c :: cleanupGo 0 t :=
        rfl
      rw [hstep, if_neg hc]
      have h2 : min m 2 = (min m 2 - 1) + 1 := by omega
      rw [h2, List.replicate_succ]
      rfl

/-- A nonempty newline-free line framed by newlines survives the
blank-line cleanup, still framed by newlines. -/
theorem cleanupGo_framed :
    ∀ (x : List Char) (n : Nat) (l y : List Char),
      (x.getLast? = some '\n' ∨ (x = [] ∧ 1 ≤ n)) → '\n' ∉ l → l ≠ [] →
      ∃ u v, cleanupGo n (x ++ l ++ '\n' :: y) = u ++ l ++ v ∧
        u.getLast? = some '\n' ∧ v.head? = some '\n' := by
  intro x
  induction x with
  | nil =>
    intro n l y hx hl hne
    rcases hx with hx | ⟨-, hn⟩
    · exact absurd hx (by simp)
    · rw [List.nil_append, cleanupGo_no_nl ('\n' :: y) l hl n hne]
      refine ⟨List.replicate (min n 2) '\n', cleanupGo 0 ('\n' :: y),
        rfl, ?_, ?_⟩
      · have h2 : min n 2 = (min n 2 - 1) + 1 := by omega
        rw [h2]
        exact replicate_getLast_nl _
      · have hstep : cleanupGo 0 ('\n' :: y) =
            if ('\n' : Char) = '\n' then cleanupGo (0 + 1) y
            else List.replicate (min 0 2) '\n' ++ '\n' :: cleanupGo 0 y :=
          rfl
        rw [hstep, if_pos rfl]
        exact cleanupGo_head_nl y 1 (Nat.le_refl 1)
  | cons c x' ih =>
    intro n l y hx hl hne
    rcases hx with hx | ⟨hnil, -⟩
    swap
    · cases hnil
    by_cases hc : c = '\n'
    · subst hc
      have hstep : cleanupGo n (('\n' :: x') ++ l ++ '\n' :: y) =
          if ('\n' : Char) = '\n' then cleanupGo (n + 1) (x' ++ l ++ '\n' :: y)
          else List.replicate (min n 2) '\n' ++
            '\n' :: cleanupGo 0 (x' ++ l ++ '\n' :: y) :=
        rfl
      rw [hstep, if_pos rfl]
      apply ih (n + 1) l y ?_ hl hne
      by_cases hx' : x' = []
      · exact Or.inr ⟨hx', by omega⟩
      · left
        obtain ⟨d, x'', hd⟩ := List.exists_cons_of_ne_nil hx'
        rw [hd]
        rw [hd, List.getLast?_cons_cons] at hx
        exact hx
    · have hx' : x' ≠ [] := by
        intro hnil
        subst hnil
        simp at hx
        exact hc hx
      obtain ⟨d, x'', hd⟩ := List.exists_cons_of_ne_nil hx'
      have hx'last : x'.getLast? = some '\n' := by
        rw [hd]
        rw [hd, List.getLast?_cons_cons] at hx
        exact hx
      obtain ⟨u, v, huv, hg, hh⟩ := ih 0 l y (Or.inl hx'last) hl hne
      have hstep : cleanupGo n ((c :: x') ++ l ++ '\n' :: y) =
          if c = '\n' then cleanupGo (n + 1) (x' ++ l ++ '\n' :: y)
          else List.replicate (min n 2) '\n' ++
            c :: cleanupGo 0 (x' ++ l ++ '\n' :: y) :=
        rfl
      rw [hstep, if_neg hc, huv]
      refine ⟨List.replicate (min n 2) '\n' ++ c :: u, v, ?_, ?_, hh⟩
      · simp [List.append_assoc]
      · have hu : u ≠ [] := by
          intro hnil
          rw [hnil] at hg
          simp at hg
        have h1 : c :: u = [c] ++ u := rfl
        rw [h1, List.getLast?_append, List.getLast?_append, hg]
        rfl

/-- `trim_end` only touches the suffix: a right part holding a
non-whitespace character keeps everything left of it intact. -/
theorem trimEnd_append_keep (a b : List Char)
    (hb : ∃ c ∈ b, isWsChar c = false) :
    trimEnd (a ++ b) = a ++ trimEnd b := by
  unfold trimEnd
  rw [List.reverse_append, List.dropWhile_append]
  have hne : b.reverse.dropWhile isWsChar ≠ [] := by
    rw [Ne, List.dropWhile_eq_nil_iff]
    intro hall
    obtain ⟨c, hc, hw⟩ := hb
    have := hall c (List.mem_reverse.mpr hc)
    rw [hw] at this
    cases this
  rw [if_neg (by simpa using hne), List.reverse_append,
    List.reverse_reverse]

/-- `trim_end` removes an all-whitespace right part entirely. -/
theorem trimEnd_append_ws (a b : List Char)
    (hb : ∀ c ∈ b, isWsChar c = true) :
    trimEnd (a ++ b) = trimEnd a := by
  unfold trimEnd
  rw [List.reverse_append, List.dropWhile_append]
  have hnil : b.reverse.dropWhile isWsChar = [] :=
    List.dropWhile_eq_nil_iff.mpr (fun c hc => hb c (List.mem_reverse.mp hc))
  rw [if_pos (by rw [hnil]; rfl)]

/-- A newline-free piece framed by newlines is one of the document's
lines. -/
theorem mem_lines_of_framed (x l y : List Char)
    (hx : x.getLast? = some '\n') (hy : y.head? = some '\n')
    (hl : '\n' ∉ l) : l ∈ linesOf (x ++ (l ++ y)) := by
  cases y with
  | nil => cases hy
  | cons d y1 =>
    have hd : d = '\n' := by
      rw [List.head?_cons] at hy
      injection hy
    subst hd
    unfold linesOf
    rw [splitSep_append_last_sep '\n' x (l ++ '\n' :: y1) hx,
      splitSep_line_append '\n' l y1 hl]
    exact List.mem_append_right _ (List.mem_cons_self _ _)

theorem mem_concatAll_decomp (ls : List (List Char)) (seg : List Char)
    (h : seg ∈ ls) : ∃ U V, concatAll ls = U ++ seg ++ V := by
  induction ls with
  | nil => cases h
  | cons hd tl ih =>
    rcases List.mem_cons.mp h with rfl | h
    · exact ⟨[], concatAll tl, by rw [concatAll_cons, List.nil_append]⟩
    · obtain ⟨U, V, hUV⟩ := ih h
      exact ⟨hd ++ U, V, by
        rw [concatAll_cons, hUV]
        simp [List.append_assoc]⟩

/-- Every unmatched segment occurs verbatim in the original document. -/
theorem splitBlocks_decomp_aux (bound : Nat) :
    ∀ s : List Char, s.length ≤ bound →
      ∀ seg ∈ splitBlocks s, ∃ X Y, s = X ++ seg ++ Y := by
  induction bound with
  | zero =>
    intro s hb seg hseg
    have hs : s = [] := List.length_eq_zero.mp (Nat.le_antisymm hb (Nat.zero_le _))
    subst hs
    unfold splitBlocks at hseg
    rw [allMatches_eq] at hseg
    simp only [findMatch] at hseg
    have hseg' : seg = lastRest [] := by simpa using hseg
    exact ⟨[], [], by rw [hseg']; rfl⟩
  | succ bound ih =>
    intro s hb seg hseg
    unfold splitBlocks at hseg
    rw [allMatches_eq, lastRest_eq] at hseg
    rcases hf : findMatch s with _ | m
    · rw [hf] at hseg
      dsimp only at hseg
      have hseg' : seg = s := by simpa using hseg
      exact ⟨[], [], by rw [hseg']; simp⟩
    · rw [hf] at hseg
      dsimp only at hseg
      obtain ⟨hs, -, -⟩ := findMatch_decomp s m hf
      rw [List.map_cons, List.cons_append] at hseg
      rcases List.mem_cons.mp hseg with rfl | hseg
      · exact ⟨[], m.openText ++ (m.content ++ (m.endText ++ m.rest)),
          by rw [List.nil_append]; exact hs⟩
      · have hlt := findMatch_rest_lt s m hf
        obtain ⟨X, Y, hXY⟩ := ih m.rest (by omega) seg hseg
        refine ⟨m.pre ++ (m.openText ++ (m.content ++ (m.endText ++ X))),
          Y, ?_⟩
        rw [hs, hXY]
        simp [List.append_assoc]

theorem splitBlocks_decomp (s seg : List Char) (h : seg ∈ splitBlocks s) :
    ∃ X Y, s = X ++ seg ++ Y :=
  splitBlocks_decomp_aux s.length s (Nat.le_refl _) seg h

/-- A line of the source lying outside every tagged block: a
newline-free piece of one of the unmatched segments, framed by
newlines. -/
def IsOutsideLine (l src : List Char) : Prop :=
  '\n' ∉ l ∧ ∃ seg ∈ splitBlocks src, ∃ a b,
    seg = a ++ l ++ b ∧ a.getLast? = some '\n' ∧ b.head? = some '\n'

/-- C4 (amended): for every source, target and platform, (1) provided the
source text left after deleting its tagged blocks holds no residual
opening bracket, every tagged block of the merge output belongs to the
current platform; and (2) every newline-framed line of the source lying
inside an unmatched segment and holding a non-whitespace character is a
line of the source and reappears as a line of the merge output, either
verbatim or with its trailing whitespace removed. -/
theorem merge_claude_md_spec (src tgt : List Char) (P : Platform) :
    ('<' ∉ stripAllBlocks src →
      ∀ pr ∈ extract_platform_blocks (merge_claude_md src tgt P),
        pr.1 = P) ∧
    (∀ l, IsOutsideLine l src → (∃ c ∈ l, isWsChar c = false) →
      l ∈ linesOf src ∧
      (l ∈ linesOf (merge_claude_md src tgt P) ∨
        trimEnd l ∈ linesOf (merge_claude_md src tgt P))) := by
  constructor
  · exact merge_no_foreign_blocks src tgt P
  · rintro l ⟨hnl, seg, hseg, a, b, hseg_eq, ha, hbh⟩ hnws
    have hlne : l ≠ [] := by
      rintro rfl
      obtain ⟨c, hc, -⟩ := hnws
      cases hc
    cases b with
    | nil => cases hbh
    | cons d b1 =>
    have hd : d = '\n' := by
      rw [List.head?_cons] at hbh
      injection hbh
    subst hd
    constructor
    · obtain ⟨X, Y, hXY⟩ := splitBlocks_decomp src seg hseg
      have hre : src = (X ++ a) ++ (l ++ ('\n' :: b1 ++ Y)) := by
        rw [hXY, hseg_eq]
        simp [List.append_assoc]
      rw [hre]
      apply mem_lines_of_framed _ _ _ ?_ ?_ hnl
      · rw [List.getLast?_append, ha]
        rfl
      · rfl
    · obtain ⟨U, V, hUV⟩ : ∃ U V, stripAllBlocks src = U ++ seg ++ V := by
        rw [stripAll_join]
        exact mem_concatAll_decomp _ _ hseg
      have hstr : stripAllBlocks src = (U ++ a) ++ (l ++ '\n' :: (b1 ++ V)) := by
        rw [hUV, hseg_eq]
        simp [List.append_assoc]
      have hUa : (U ++ a).getLast? = some '\n' := by
        rw [List.getLast?_append, ha]
        rfl
      obtain ⟨u, v, hcl, hug, hvh⟩ :=
        cleanupGo_framed (U ++ a) 0 l (b1 ++ V) (Or.inl hUa) hnl hlne
      have hcommon : cleanup_blank_lines (stripAllBlocks src) = u ++ (l ++ v) := by
        show cleanupGo 0 (stripAllBlocks src) = u ++ (l ++ v)
        rw [hstr]
        simpa [List.append_assoc] using hcl
      have hm : merge_claude_md src tgt P =
          match extract_current_platform_block tgt P with
          | some block =>
            trimEnd (cleanup_blank_lines (stripAllBlocks src)) ++
              '\n' :: (block ++ ['\n'])
          | none => cleanup_blank_lines (stripAllBlocks src) := rfl
      rcases he : extract_current_platform_block tgt P with _ | blk
      · rw [hm, he]
        dsimp only
        left
        rw [hcommon]
        exact mem_lines_of_framed u l v hug hvh hnl
      · rw [hm, he]
        dsimp only
        cases v with
        | nil => cases hvh
        | cons e v1 =>
        have he' : e = '\n' := by
          rw [List.head?_cons] at hvh
          injection hvh
        subst he'
        have hcommon2 : cleanup_blank_lines (stripAllBlocks src) =
            (u ++ l) ++ ('\n' :: v1) := by
          rw [hcommon]
          simp [List.append_assoc]
        rw [hcommon2]
        by_cases hrest : ∃ c ∈ v1, isWsChar c = false
        · left
          have hx : ∃ c ∈ '\n' :: v1, isWsChar c = false := by
            obtain ⟨c, hc, hw⟩ := hrest
            exact ⟨c, List.mem_cons_of_mem _ hc, hw⟩
          rw [trimEnd_append_keep _ _ hx]
          have h2 : trimEnd ('\n' :: v1) = '\n' :: trimEnd v1 :=
            trimEnd_append_keep ['\n'] v1 hrest
          rw [h2]
          have hfin : ((u ++ l) ++ ('\n' :: trimEnd v1)) ++
              '\n' :: (blk ++ ['\n']) =
              u ++ (l ++ ('\n' :: (trimEnd v1 ++ '\n' :: (blk ++ ['\n'])))) := by
            simp [List.append_assoc]
          rw [hfin]
          exact mem_lines_of_framed u l _ hug rfl hnl
        · right
          have hallws : ∀ c ∈ '\n' :: v1, isWsChar c = true := by
            intro c hc
            rcases List.mem_cons.mp hc with rfl | hc
            · rfl
            · cases hw2 : isWsChar c with
              | false => exact absurd ⟨c, hc, hw2⟩ hrest
              | true => rfl
          rw [trimEnd_append_ws _ _ hallws, trimEnd_append_keep u l hnws]
          have hfin : (u ++ trimEnd l) ++ '\n' :: (blk ++ ['\n']) =
              u ++ (trimEnd l ++ ('\n' :: (blk ++ ['\n']))) := by
            simp [List.append_assoc]
          rw [hfin]
          exact mem_lines_of_framed u (trimEnd l) _ hug rfl
            (fun hmem => hnl (mem_trimEnd _ _ hmem))

/-- A source whose windows block, once deleted, splices the surrounding
text into a brand-new macos block. -/
def cex4src : List Char :=
  ("<!-- platform: macos <!-- platform: windows -->X" ++
   "<!-- end-platform --> -->Y<!-- end-platform -->").data

/-- A block-free source consisting of one line with trailing whitespace. -/
def cex4src2 : List Char := "a ".data

def cex4tgt2 : List Char :=
  "<!-- platform: windows -->w<!-- end-platform -->".data

def wSrc4 : List Char := "x\nhello\ny".data

def wLine4 : List Char := "hello".data

/-- C4, counterexample to the literal claim: deleting the source's tagged
blocks can splice the surrounding text into a brand-new tagged block of a
foreign platform, which the merge output then contains; and a source line
with trailing whitespace lying outside every tagged block (the source
`"a "` holds no `<` at all, hence no block) is not a line of the merge
output, which keeps only its trimmed form. -/
theorem merge_claude_md_cex :
    (∃ pr ∈ extract_platform_blocks
        (merge_claude_md cex4src [] Platform.Windows),
      pr.1 ≠ Platform.Windows) ∧
    (cex4src2 ∈ linesOf cex4src2 ∧ '<' ∉ cex4src2 ∧
      cex4src2 ∉ linesOf (merge_claude_md cex4src2 cex4tgt2
        Platform.Windows)) := by
  decide

/-- C4 witness: on the concrete source `"x\nhello\ny"` with an empty
target, every block of the merge output is a Linux block (there is none)
and the outside line `"hello"` survives into the merge output. -/
theorem merge_claude_md_spec_witness :
    (∀ pr ∈ extract_platform_blocks (merge_claude_md wSrc4 [] Platform.Linux),
        pr.1 = Platform.Linux) ∧
    (wLine4 ∈ linesOf wSrc4 ∧
      (wLine4 ∈ linesOf (merge_claude_md wSrc4 [] Platform.Linux) ∨
        trimEnd wLine4 ∈ linesOf (merge_claude_md wSrc4 [] Platform.Linux))) :=
  ⟨(merge_claude_md_spec wSrc4 [] Platform.Linux).1 (by decide),
   (merge_claude_md_spec wSrc4 [] Platform.Linux).2 wLine4
     ⟨by decide, wSrc4, by decide,
       'x' :: '\n' :: [], '\n' :: 'y' :: [], by decide, by decide, by decide⟩
     ⟨'h', by decide, by decide⟩⟩

/-! ### C6: platform-name aliases and letter case -/

/-- A document whose only tagged block names its platform in upper
case. -/
def cex6up : List Char :=
  "<!-- platform:WIN -->w<!-- end-platform -->".data

/-- The same document with the lowercase alias. -/
def cex6lo : List Char :=
  "<!-- platform:win -->w<!-- end-platform -->".data

/-- C6, counterexample to the literal claim: the block regex only matches
the lowercase alias names, so a block tagged `WIN` is not recognized at
all — it is not a block, is not extracted, and the platform filter copies
it verbatim — while the same document with `win` is recognized and
filtered. -/
theorem alias_case_cex :
    has_platform_blocks cex6up = false ∧
    extract_current_platform_block cex6up Platform.Windows = none ∧
    filter_for_platform cex6up Platform.Windows = cex6up ∧
    has_platform_blocks cex6lo = true ∧
    extract_current_platform_block cex6lo Platform.Windows = some cex6lo ∧
    filter_for_platform cex6lo Platform.Windows = ['w'] := by
  decide

/-- C6 (amended): case-insensitive alias resolution happens only in
`Platform::from_tag_name` — which lowercases its argument, so names equal
up to case resolve to the same platform, and on the lowercase alias names
it agrees with the `target_names` tables used by extraction and
filtering — but the block regex itself matches only the lowercase names:
every matched block's captured name is one of the six lowercase
aliases. -/
theorem alias_resolution_spec :
    (∀ n1 n2 : List Char, n1.map Char.toLower = n2.map Char.toLower →
      Platform.from_tag_name n1 = Platform.from_tag_name n2) ∧
    (∀ n ∈ platformNames, ∀ P : Platform,
      Platform.from_tag_name n = some P ↔ n ∈ targetNames P) ∧
    (∀ doc : List Char, ∀ m ∈ allMatches doc, m.name ∈ platformNames) := by
  refine ⟨?_, ?_, ?_⟩
  · intro n1 n2 h
    simp only [Platform.from_tag_name]
    rw [h]
  · intro n hn P
    cases P <;> revert n <;> decide
  · intro doc m hm
    exact (allMatches_inv doc m hm).1

/-- C6 witness: `from_tag_name` sends `WIN` and `win` to the same
platform, `win` is a Windows alias exactly as in `target_names`, and the
one match of the lowercase document carries a lowercase name. -/
theorem alias_resolution_spec_witness :
    Platform.from_tag_name "WIN".data = Platform.from_tag_name "win".data ∧
    (Platform.from_tag_name winN = some Platform.Windows ↔
      winN ∈ targetNames Platform.Windows) ∧
    ∀ m ∈ allMatches cex6lo, m.name ∈ platformNames :=
  ⟨alias_resolution_spec.1 "WIN".data "win".data (by decide),
   alias_resolution_spec.2.1 winN (by decide) Platform.Windows,
   alias_resolution_spec.2.2 cex6lo⟩

/-! ### C7: the blank-line cleanup -/

theorem cleanupGo_replicate (k : Nat) :
    ∀ (n : Nat) (t : List Char),
      cleanupGo n (List.replicate k '\n' ++ t) = cleanupGo (n + k) t := by
  induction k with
  | zero =>
    intro n t
    rfl
  | succ k ih =>
    intro n t
    rw [List.replicate_succ, List.cons_append]
    have hstep : cleanupGo n ('\n' :: (List.replicate k '\n' ++ t)) =
        if ('\n' : Char) = '\n' then
          cleanupGo (n + 1) (List.replicate k '\n' ++ t)
        else List.replicate (min n 2) '\n' ++
          '\n' :: cleanupGo 0 (List.replicate k '\n' ++ t) :=
      rfl
    rw [hstep, if_pos rfl, ih]
    have harith : n + 1 + k = n + (k + 1) := by omega
    rw [harith]

/-- The document consisting of the line `a`, two blank lines and the
line `b`: a run of only two blank lines, which the claim says is left
unchanged. -/
def cex7 : List Char := "a\n\n\nb".data

/-- C7, counterexample to the literal claim: the regex `\n{3,}` counts
newline characters, not blank lines.  `"a\n\n\nb"` holds only two
consecutive blank lines, yet the cleanup rewrites it (to `"a\n\nb"`). -/
theorem cleanup_blank_lines_cex :
    linesOf cex7 = ["a".data, [], [], "b".data] ∧
    cleanup_blank_lines cex7 ≠ cex7 := by
  decide

/-- C7 (amended): the cleanup collapses every maximal run of `k`
consecutive newline characters to `min k 2` newlines — so three or more
newlines (two or more blank lines) become exactly two newlines (one
blank line) — and copies every non-newline character unchanged. -/
theorem cleanup_blank_lines_spec :
    (∀ k : Nat, cleanup_blank_lines (List.replicate k '\n') =
      List.replicate (min k 2) '\n') ∧
    (∀ (k : Nat) (c : Char) (t : List Char), c ≠ '\n' →
      cleanup_blank_lines (List.replicate k '\n' ++ c :: t) =
        List.replicate (min k 2) '\n' ++ c :: cleanup_blank_lines t) := by
  constructor
  · intro k
    show cleanupGo 0 (List.replicate k '\n') = List.replicate (min k 2) '\n'
    rw [show List.replicate k '\n' = List.replicate k '\n' ++ [] by simp,
      cleanupGo_replicate k 0 [], Nat.zero_add]
    rfl
  · intro k c t hc
    show cleanupGo 0 (List.replicate k '\n' ++ c :: t) = _
    rw [cleanupGo_replicate k 0 (c :: t), Nat.zero_add]
    have hstep : cleanupGo k (c :: t) =
        if c = '\n' then cleanupGo (k + 1) t
        else List.replicate (min k 2) '\n' ++ c :: cleanupGo 0 t :=
      rfl
    rw [hstep, if_neg hc]
    rfl

/-- C7 witness: a run of three newlines followed by `b` collapses to two
newlines before the untouched `b`. -/
theorem cleanup_blank_lines_spec_witness :
    cleanup_blank_lines (List.replicate 3 '\n' ++ 'b' :: []) =
      List.replicate (min 3 2) '\n' ++ 'b' :: cleanup_blank_lines [] :=
  cleanup_blank_lines_spec.2 3 'b' [] (by decide)

end SyncEngine
